import Mathlib

/-!
Verification of the tradespotter PTR ingestion data layer.

The development embeds, as executable Lean definitions, the parts of the
repository that govern deduplication and idempotent persistence of
(politician, disclosure, trade) records:

* the SQL function `generate_trade_row_hash` and the trigger
  `update_trade_row_hash` from the PTR ingestion setup migration,
  together with a full executable SHA-256 so that concrete digests are
  computed, not assumed;
* the SQL maintenance function `cleanup_duplicate_trades`;
* the declared table constraints of the `politicians`, `disclosures`
  and `trades` tables of the fresh-schema migration and of the
  PTR-setup migration (primary keys, unique constraints, the partial
  unique index on `row_hash`);
* the ingestion worker operations (politician upsert, disclosure
  insert, trade insert, bulk TXT row normalization), which are not part
  of the checked sources and are therefore modelled from the
  specification, as noted on each such definition.

Tables are modelled as lists of records; nullable SQL columns become
`Option` fields; SQL `DATE` values appear in their ISO text form, which
is exactly the form in which they enter the hash computation.
-/

namespace Tradespotter

/-! ## SHA-256, executable

A byte is a `Nat` below 256; a word is a `Nat` below 2^32, with overflow
made explicit by reduction modulo `w32`. -/

/-- 2^32, the word modulus of SHA-256. -/
def w32 : Nat := 4294967296

/-- Addition of 32-bit words. -/
def add32 (a b : Nat) : Nat := (a + b) % w32

/-- Right rotation of a 32-bit word by `k` places. -/
def rotr32 (x k : Nat) : Nat := ((x >>> k) ||| (x <<< (32 - k))) % w32

/-- Logical right shift. -/
def shr32 (x k : Nat) : Nat := x >>> k

/-- The big Sigma-0 mixing function of SHA-256. -/
def bigSigma0 (x : Nat) : Nat := (rotr32 x 2) ^^^ (rotr32 x 13) ^^^ (rotr32 x 22)

/-- The big Sigma-1 mixing function of SHA-256. -/
def bigSigma1 (x : Nat) : Nat := (rotr32 x 6) ^^^ (rotr32 x 11) ^^^ (rotr32 x 25)

/-- The small sigma-0 schedule function of SHA-256. -/
def smallSigma0 (x : Nat) : Nat := (rotr32 x 7) ^^^ (rotr32 x 18) ^^^ (shr32 x 3)

/-- The small sigma-1 schedule function of SHA-256. -/
def smallSigma1 (x : Nat) : Nat := (rotr32 x 17) ^^^ (rotr32 x 19) ^^^ (shr32 x 10)

/-- The choice function: bits of `y` where `x` is set, of `z` elsewhere. -/
def chF (x y z : Nat) : Nat := (x &&& y) ^^^ ((x ^^^ (w32 - 1)) &&& z)

/-- The majority function on three 32-bit words. -/
def majF (x y z : Nat) : Nat := (x &&& y) ^^^ (x &&& z) ^^^ (y &&& z)

/-- The 64 round constants of SHA-256. -/
def K256 : List Nat :=
  [1116352408, 1899447441, 3049323471, 3921009573, 961987163,
   1508970993, 2453635748, 2870763221, 3624381080, 310598401,
   607225278, 1426881987, 1925078388, 2162078206, 2614888103,
   3248222580, 3835390401, 4022224774, 264347078, 604807628,
   770255983, 1249150122, 1555081692, 1996064986, 2554220882,
   2821834349, 2952996808, 3210313671, 3336571891, 3584528711,
   113926993, 338241895, 666307205, 773529912, 1294757372,
   1396182291, 1695183700, 1986661051, 2177026350, 2456956037,
   2730485921, 2820302411, 3259730800, 3345764771, 3516065817,
   3600352804, 4094571909, 275423344, 430227734, 506948616,
   659060556, 883997877, 958139571, 1322822218, 1537002063,
   1747873779, 1955562222, 2024104815, 2227730452, 2361852424,
   2428436474, 2756734187, 3204031479, 3329325298]

/-- The initial hash state of SHA-256. -/
def H0 : List Nat :=
  [1779033703, 3144134277, 1013904242, 2773480762, 1359893119,
   2600822924, 528734635, 1541459225]

/-- Big-endian byte encoding of `v` in `n` bytes. -/
def toBytesBE : Nat → Nat → List Nat
  | 0, _ => []
  | n + 1, v => (v >>> (8 * n)) % 256 :: toBytesBE n v

/-- SHA-256 padding: append 0x80, then zeros up to 56 mod 64 bytes, then
the 64-bit big-endian bit length of the original message. -/
def padMessage (msg : List Nat) : List Nat :=
  msg ++ [0x80] ++ List.replicate ((119 - msg.length % 64) % 64) 0 ++ toBytesBE 8 (8 * msg.length)

/-- Split a byte list into 64-byte blocks; the fuel argument is the list
length, which bounds the number of blocks. -/
def toBlocksGo : Nat → List Nat → List (List Nat)
  | 0, _ => []
  | _, [] => []
  | fuel + 1, l => l.take 64 :: toBlocksGo fuel (l.drop 64)

/-- Split a byte list into 64-byte blocks. -/
def toBlocks (l : List Nat) : List (List Nat) := toBlocksGo l.length l

/-- Pack each group of 4 bytes into a big-endian 32-bit word. -/
def bytesToWordsGo : Nat → List Nat → List Nat
  | 0, _ => []
  | _, [] => []
  | fuel + 1, a :: b :: c :: d :: rest =>
      (a <<< 24 ||| b <<< 16 ||| c <<< 8 ||| d) :: bytesToWordsGo fuel rest
  | _ + 1, _ => []

/-- Pack bytes into big-endian 32-bit words. -/
def bytesToWords (l : List Nat) : List Nat := bytesToWordsGo l.length l

/-- Extend a 16-word block by `n` further schedule words. -/
def extendSchedule : Nat → List Nat → List Nat
  | 0, ws => ws
  | n + 1, ws =>
      let len := ws.length
      let v := add32 (add32 (smallSigma1 (ws.getD (len - 2) 0)) (ws.getD (len - 7) 0))
                     (add32 (smallSigma0 (ws.getD (len - 15) 0)) (ws.getD (len - 16) 0))
      extendSchedule n (ws ++ [v])

/-- The eight working registers of the SHA-256 compression loop. -/
structure Regs where
  a : Nat
  b : Nat
  c : Nat
  d : Nat
  e : Nat
  f : Nat
  g : Nat
  h : Nat

/-- One round of the SHA-256 compression loop, consuming a constant and
a schedule word. -/
def roundStep (r : Regs) (kw : Nat × Nat) : Regs :=
  let t1 := add32 (add32 (add32 r.h (bigSigma1 r.e)) (add32 (chF r.e r.f r.g) kw.1)) kw.2
  let t2 := add32 (bigSigma0 r.a) (majF r.a r.b r.c)
  ⟨add32 t1 t2, r.a, r.b, r.c, add32 r.d t1, r.e, r.f, r.g⟩

/-- Compress one 64-byte block into the running hash state. -/
def compressBlock (hs : List Nat) (block : List Nat) : List Nat :=
  let ws := extendSchedule 48 (bytesToWords block)
  let init : Regs := ⟨hs.getD 0 0, hs.getD 1 0, hs.getD 2 0, hs.getD 3 0,
                      hs.getD 4 0, hs.getD 5 0, hs.getD 6 0, hs.getD 7 0⟩
  let r := (K256.zip ws).foldl roundStep init
  [add32 (hs.getD 0 0) r.a, add32 (hs.getD 1 0) r.b, add32 (hs.getD 2 0) r.c,
   add32 (hs.getD 3 0) r.d, add32 (hs.getD 4 0) r.e, add32 (hs.getD 5 0) r.f,
   add32 (hs.getD 6 0) r.g, add32 (hs.getD 7 0) r.h]

/-- SHA-256 of a byte list, as its 32 digest bytes. -/
def sha256 (msg : List Nat) : List Nat :=
  ((toBlocks (padMessage msg)).foldl compressBlock H0).flatMap (toBytesBE 4)

/-- Lower-case hex digit for a value below 16. -/
def hexDigit (n : Nat) : Char :=
  if n < 10 then Char.ofNat (48 + n) else Char.ofNat (87 + n)

/-- Two lower-case hex digits of a byte. -/
def byteToHex (b : Nat) : List Char := [hexDigit (b / 16), hexDigit (b % 16)]

/-- Lower-case hex encoding of a byte list. -/
def bytesToHex (bs : List Nat) : String := ⟨bs.flatMap byteToHex⟩

/-- UTF-8 encoding of a Unicode scalar value. -/
def utf8EncodeCharNat (n : Nat) : List Nat :=
  if n < 0x80 then [n]
  else if n < 0x800 then [0xc0 ||| (n >>> 6), 0x80 ||| (n &&& 0x3f)]
  else if n < 0x10000 then
    [0xe0 ||| (n >>> 12), 0x80 ||| ((n >>> 6) &&& 0x3f), 0x80 ||| (n &&& 0x3f)]
  else
    [0xf0 ||| (n >>> 18), 0x80 ||| ((n >>> 12) &&& 0x3f),
     0x80 ||| ((n >>> 6) &&& 0x3f), 0x80 ||| (n &&& 0x3f)]

/-- UTF-8 bytes of a string. -/
def utf8Encode (s : String) : List Nat := s.data.flatMap (fun c => utf8EncodeCharNat c.toNat)

/-- Hex-encoded SHA-256 digest of the UTF-8 bytes of a string. -/
def sha256hex (s : String) : String := bytesToHex (sha256 (utf8Encode s))

/-! ## The trade content hash

`generate_trade_row_hash` embeds the SQL function of the same name from
the PTR ingestion setup migration: each argument is COALESCEd to the
empty string, the results are concatenated with literal pipe
separators, and the SHA-256 digest of that string is returned
hex-encoded. The `DATE` argument is represented by its ISO text form,
which is what the SQL text cast produces. -/

/-- Pipe-joined concatenation of the seven hashed trade fields, in the
order written in the SQL function body. -/
def pipeJoinDb (a b c d e f g : String) : String :=
  a ++ "|" ++ b ++ "|" ++ c ++ "|" ++ d ++ "|" ++ e ++ "|" ++ f ++ "|" ++ g

/-- The SQL function `generate_trade_row_hash`: hex-encoded SHA-256 of
the pipe-joined COALESCEd fields. -/
def generate_trade_row_hash
    (p_source p_filing_id p_asset_description p_ticker
     p_transaction_type p_transaction_date p_amount_range : Option String) : String :=
  sha256hex (pipeJoinDb (p_source.getD "") (p_filing_id.getD "")
    (p_asset_description.getD "") (p_ticker.getD "") (p_transaction_type.getD "")
    (p_transaction_date.getD "") (p_amount_range.getD ""))

/-- Modelled from the spec: the application-side content hash of the
ingestion worker, which is not among the checked sources. Following the
words of the spec, the canonical fields source, document id, asset
description, ticker, transaction side, transaction date (ISO form) and
amount range are each substituted with the empty string when absent,
joined with a literal pipe separator, and the SHA-256 digest of the
joined string is hex-encoded. -/
def worker_trade_content_hash
    (source docId asset ticker side dateIso amount : Option String) : String :=
  sha256hex (String.intercalate "|"
    [source.getD "", docId.getD "", asset.getD "", ticker.getD "",
     side.getD "", dateIso.getD "", amount.getD ""])

theorem intercalate_seven (a b c d e f g : String) :
    String.intercalate "|" [a, b, c, d, e, f, g] = pipeJoinDb a b c d e f g := by
  simp [String.intercalate, String.intercalate.go, pipeJoinDb, String.append_assoc]

/-- C1. The content hash of a trade is the hex-encoded SHA-256 digest of
the pipe-joined fields source, document id, asset description, ticker,
transaction type, ISO transaction date and amount range, with absent
fields replaced by the empty string; the database-side SQL function and
the (spec-modelled) application-side rule agree on every input, and on
the fixed inputs of the spec the result is the fixed hex string
computed here, so repeated invocations reproduce it byte for byte. -/
theorem c1_row_hash_deterministic_and_cross_impl :
    (∀ source docId asset ticker side dateIso amount : Option String,
      generate_trade_row_hash source docId asset ticker side dateIso amount
        = worker_trade_content_hash source docId asset ticker side dateIso amount)
    ∧ generate_trade_row_hash (some "house_clerk") (some "40003749")
        (some "Apple Inc.") (some "AAPL") (some "buy") (some "2024-01-15")
        (some "$1,001–$15,000")
        = "f0ac0fda7ea721575b921f4ef579322ab0610b66e4a590e4f558365e404b45b5" := by
  constructor
  · intro source docId asset ticker side dateIso amount
    unfold generate_trade_row_hash worker_trade_content_hash
    rw [intercalate_seven]
  · set_option maxRecDepth 1000000 in decide

/-! ## The trades table

One row of `public.trades` as shaped by the PTR ingestion setup
migration: `row_hash` is nullable there (the fresh-schema variant makes
it NOT NULL), `source` is NOT NULL with default `manual`, and the
remaining hashed columns are nullable. Timestamps are abstract ticks. -/

/-- A row of the `trades` table. -/
structure TradeRec where
  id : Nat
  row_hash : Option String
  source : String
  filing_id : Option String
  asset_description : Option String
  ticker : Option String
  transaction_type : Option String
  transaction_date : Option String
  amount_range : Option String
  created_at : Nat
deriving DecidableEq

/-- The trigger function `update_trade_row_hash`: before insert or
update, recompute `row_hash` from the hashed columns, but only when the
source is not `manual` and `filing_id` is non-null; otherwise return the
row unmodified. -/
def update_trade_row_hash (NEW : TradeRec) : TradeRec :=
  if NEW.source ≠ "manual" ∧ NEW.filing_id ≠ none then
    { NEW with row_hash := some (generate_trade_row_hash (some NEW.source) NEW.filing_id
        NEW.asset_description NEW.ticker NEW.transaction_type NEW.transaction_date
        NEW.amount_range) }
  else NEW

/-- The partial unique index `idx_trades_row_hash ... WHERE row_hash IS
NOT NULL`: two rows conflict only when both hashes are non-null and
equal, so the predicate requires any two rows to differ in hash unless
one of the hashes is null. -/
def rowHashPartialUnique (rows : List TradeRec) : Prop :=
  List.Pairwise
    (fun r1 r2 => r1.row_hash = none ∨ r2.row_hash = none ∨ r1.row_hash ≠ r2.row_hash) rows

instance (rows : List TradeRec) : Decidable (rowHashPartialUnique rows) := by
  unfold rowHashPartialUnique
  infer_instance

/-- C10. The database-side trigger recomputes `row_hash` only for rows
whose source differs from `manual` and whose `filing_id` is non-null;
any row with source `manual` or a null `filing_id` passes through the
trigger unchanged, keeping whatever hash (possibly null) it carries; and
since the unique index on `row_hash` is partial over non-null values,
a table whose rows all carry a null hash satisfies it no matter how
many rows it has — hash uniqueness constrains only non-null hashes. -/
theorem c10_trigger_scope_and_partial_index :
    (∀ r : TradeRec, r.source = "manual" ∨ r.filing_id = none → update_trade_row_hash r = r)
    ∧ (∀ r : TradeRec, r.source ≠ "manual" → r.filing_id ≠ none →
        (update_trade_row_hash r).row_hash
          = some (generate_trade_row_hash (some r.source) r.filing_id r.asset_description
              r.ticker r.transaction_type r.transaction_date r.amount_range))
    ∧ (∀ rows : List TradeRec, (∀ r ∈ rows, r.row_hash = none) → rowHashPartialUnique rows) := by
  refine ⟨?_, ?_, ?_⟩
  · intro r hr
    unfold update_trade_row_hash
    rcases hr with h | h
    · rw [if_neg]
      rintro ⟨hs, _⟩
      exact hs h
    · rw [if_neg]
      rintro ⟨_, hf⟩
      exact hf h
  · intro r hs hf
    unfold update_trade_row_hash
    rw [if_pos ⟨hs, hf⟩]
  · intro rows hnull
    unfold rowHashPartialUnique
    induction rows with
    | nil => exact List.Pairwise.nil
    | cons r rest ih =>
        refine List.Pairwise.cons ?_ (ih fun x hx => hnull x (List.mem_cons_of_mem r hx))
        intro r2 _
        exact Or.inl (hnull r (List.mem_cons_self r rest))

/-- A manual trade row carrying a null hash, used to instantiate the
trigger and partial-index facts. -/
def manualTradeRow : TradeRec :=
  { id := 1, row_hash := none, source := "manual", filing_id := none,
    asset_description := some "Apple Inc.", ticker := some "AAPL",
    transaction_type := some "buy", transaction_date := some "2024-01-15",
    amount_range := some "$1,001–$15,000", created_at := 0 }

/-- A second manual trade row with a null hash and a different id. -/
def manualTradeRow2 : TradeRec :=
  { manualTradeRow with id := 2, created_at := 1 }

theorem c10_witness :
    update_trade_row_hash manualTradeRow = manualTradeRow
    ∧ rowHashPartialUnique [manualTradeRow, manualTradeRow2] :=
  ⟨c10_trigger_scope_and_partial_index.1 manualTradeRow (Or.inl rfl),
   c10_trigger_scope_and_partial_index.2.2 [manualTradeRow, manualTradeRow2]
     (by decide)⟩

/-! ## Trade insertion

The ingestion worker inserts trades with a computed content hash and
treats a uniqueness violation on the hash as a successful no-op. The
worker itself is not among the checked sources, so the operation is
modelled from the spec against the constraints embedded above. -/

/-- The canonical hashed fields of one extracted trade. -/
structure TradeData where
  source : String
  filing_id : String
  asset_description : Option String
  ticker : Option String
  transaction_type : Option String
  transaction_date : Option String
  amount_range : Option String
deriving DecidableEq

/-- The content hash of an extracted trade, via the shared hash rule. -/
def tradeDataHash (d : TradeData) : String :=
  generate_trade_row_hash (some d.source) (some d.filing_id) d.asset_description
    d.ticker d.transaction_type d.transaction_date d.amount_range

/-- Some row of the table carries the given non-null hash. -/
def hashPresent (rows : List TradeRec) (h : String) : Prop :=
  ∃ r ∈ rows, r.row_hash = some h

instance (rows : List TradeRec) (h : String) : Decidable (hashPresent rows h) := by
  unfold hashPresent
  infer_instance

/-- The trade row stored for an extracted trade, with the given id and
creation tick. -/
def mkTradeRec (idv createdv : Nat) (d : TradeData) : TradeRec :=
  { id := idv, row_hash := some (tradeDataHash d), source := d.source,
    filing_id := some d.filing_id, asset_description := d.asset_description,
    ticker := d.ticker, transaction_type := d.transaction_type,
    transaction_date := d.transaction_date, amount_range := d.amount_range,
    created_at := createdv }

/-- Modelled from the spec: the trade insert of the upserter, which is
not among the checked sources. The insert is attempted and a uniqueness
violation on the content hash is caught and treated as a successful
no-op, so a trade whose hash is already stored changes nothing; a new
row receives the next id and creation tick. -/
def insertTradeData (rows : List TradeRec) (d : TradeData) : List TradeRec :=
  if hashPresent rows (tradeDataHash d) then rows
  else rows ++ [mkTradeRec rows.length rows.length d]

/-- Insert a batch of extracted trades in order. -/
def ingestTrades (rows : List TradeRec) (ds : List TradeData) : List TradeRec :=
  ds.foldl insertTradeData rows

/-- No two rows with distinct ids share a row hash. -/
def tradesHashUnique (rows : List TradeRec) : Prop :=
  ∀ r1 ∈ rows, ∀ r2 ∈ rows, r1.id ≠ r2.id → r1.row_hash ≠ r2.row_hash

instance (rows : List TradeRec) : Decidable (tradesHashUnique rows) := by
  unfold tradesHashUnique
  infer_instance

theorem hashPresent_insert {rows : List TradeRec} {h : String} (d : TradeData)
    (hp : hashPresent rows h) : hashPresent (insertTradeData rows d) h := by
  unfold insertTradeData
  split
  · exact hp
  · obtain ⟨r, hr, hh⟩ := hp
    exact ⟨r, List.mem_append_left _ hr, hh⟩

theorem hashPresent_ingest {rows : List TradeRec} {h : String} (ds : List TradeData)
    (hp : hashPresent rows h) : hashPresent (ingestTrades rows ds) h := by
  induction ds generalizing rows with
  | nil => exact hp
  | cons d rest ih => exact ih (hashPresent_insert d hp)

theorem hashPresent_insert_self (rows : List TradeRec) (d : TradeData) :
    hashPresent (insertTradeData rows d) (tradeDataHash d) := by
  unfold insertTradeData
  split
  · assumption
  · exact ⟨mkTradeRec rows.length rows.length d,
      List.mem_append_right _ (List.mem_singleton_self _), rfl⟩

theorem hashPresent_ingest_all (rows : List TradeRec) (ds : List TradeData) :
    ∀ d ∈ ds, hashPresent (ingestTrades rows ds) (tradeDataHash d) := by
  induction ds generalizing rows with
  | nil => intro d hd; cases hd
  | cons d0 rest ih =>
      intro d hd
      rcases List.mem_cons.mp hd with h | h
      · subst h
        exact hashPresent_ingest rest (hashPresent_insert_self rows d)
      · exact ih (insertTradeData rows d0) d h

theorem insertTradeData_noop {rows : List TradeRec} {d : TradeData}
    (hp : hashPresent rows (tradeDataHash d)) : insertTradeData rows d = rows := by
  unfold insertTradeData
  exact if_pos hp

theorem ingestTrades_noop {rows : List TradeRec} {ds : List TradeData}
    (hp : ∀ d ∈ ds, hashPresent rows (tradeDataHash d)) : ingestTrades rows ds = rows := by
  induction ds with
  | nil => rfl
  | cons d rest ih =>
      unfold ingestTrades
      rw [List.foldl_cons, insertTradeData_noop (hp d (List.mem_cons_self d rest))]
      exact ih fun x hx => hp x (List.mem_cons_of_mem d hx)

theorem tradesHashUnique_insert {rows : List TradeRec} (d : TradeData)
    (hu : tradesHashUnique rows) : tradesHashUnique (insertTradeData rows d) := by
  unfold insertTradeData
  split
  · exact hu
  · rename_i hnp
    intro r1 h1 r2 h2 hid
    rcases List.mem_append.mp h1 with h1 | h1 <;>
      rcases List.mem_append.mp h2 with h2 | h2
    · exact hu r1 h1 r2 h2 hid
    · rw [List.mem_singleton] at h2
      subst h2
      intro he
      exact hnp ⟨r1, h1, by rw [he]; rfl⟩
    · rw [List.mem_singleton] at h1
      subst h1
      intro he
      exact hnp ⟨r2, h2, by rw [← he]; rfl⟩
    · rw [List.mem_singleton] at h1 h2
      subst h1; subst h2
      exact absurd rfl hid

theorem tradesHashUnique_ingest {rows : List TradeRec} (ds : List TradeData)
    (hu : tradesHashUnique rows) : tradesHashUnique (ingestTrades rows ds) := by
  induction ds generalizing rows with
  | nil => exact hu
  | cons d rest ih => exact ih (tradesHashUnique_insert d hu)

/-- C2. In any trades store reached by ingestion inserts, no two rows
with distinct ids share a content hash: the uniqueness invariant is
preserved by every insert and so holds after any batch; re-ingesting
the same batch changes nothing (re-parsing the same filing never
inserts duplicate trades); every row so created carries a non-null
hash; two trades whose hashed fields produce different hashes are both
kept, and a trade all of whose hashed fields coincide with an already
stored one is merged into it (the second insert is a no-op). -/
theorem c2_trades_hash_unique :
    (∀ rows (d : TradeData), tradesHashUnique rows → tradesHashUnique (insertTradeData rows d))
    ∧ (∀ rows (ds : List TradeData), tradesHashUnique rows →
        tradesHashUnique (ingestTrades rows ds))
    ∧ (∀ rows (ds : List TradeData),
        ingestTrades (ingestTrades rows ds) ds = ingestTrades rows ds)
    ∧ (∀ ds : List TradeData, ∀ r ∈ ingestTrades [] ds, r.row_hash ≠ none)
    ∧ (∀ d1 d2 : TradeData, tradeDataHash d1 ≠ tradeDataHash d2 →
        (ingestTrades [] [d1, d2]).length = 2)
    ∧ (∀ d : TradeData, (ingestTrades [] [d, d]).length = 1) := by
  refine ⟨fun rows d => tradesHashUnique_insert d,
          fun rows ds => tradesHashUnique_ingest ds,
          fun rows ds => ingestTrades_noop (hashPresent_ingest_all rows ds),
          ?_, ?_, ?_⟩
  · have key : ∀ (ds : List TradeData) (rows : List TradeRec),
        (∀ r ∈ rows, r.row_hash ≠ none) → ∀ r ∈ ingestTrades rows ds, r.row_hash ≠ none := by
      intro ds
      induction ds with
      | nil => intro rows h r hr; exact h r hr
      | cons d rest ih =>
          intro rows h r hr
          refine ih (insertTradeData rows d) ?_ r hr
          intro x hx
          unfold insertTradeData at hx
          split at hx
          · exact h x hx
          · rcases List.mem_append.mp hx with hx | hx
            · exact h x hx
            · rw [List.mem_singleton] at hx
              subst hx
              simp [mkTradeRec]
    intro ds r hr
    exact key ds [] (by intro r hr; cases hr) r hr
  · intro d1 d2 hne
    unfold ingestTrades
    rw [List.foldl_cons, List.foldl_cons, List.foldl_nil]
    have h1 : insertTradeData [] d1 = [mkTradeRec 0 0 d1] := by
      unfold insertTradeData
      rw [if_neg]
      · rfl
      · rintro ⟨r, hr, _⟩
        cases hr
    rw [h1]
    unfold insertTradeData
    rw [if_neg]
    · rfl
    · rintro ⟨r, hr, hh⟩
      rw [List.mem_singleton] at hr
      subst hr
      simp only [mkTradeRec] at hh
      exact hne (Option.some.inj hh)
  · intro d
    unfold ingestTrades
    rw [List.foldl_cons, List.foldl_cons, List.foldl_nil]
    have h1 : insertTradeData [] d = [mkTradeRec 0 0 d] := by
      unfold insertTradeData
      rw [if_neg]
      · rfl
      · rintro ⟨r, hr, _⟩
        cases hr
    rw [h1, insertTradeData_noop ⟨mkTradeRec 0 0 d, List.mem_singleton_self _, rfl⟩]
    rfl

/-- Two extracted trades identical in every hashed field except the
filing id; their pipe-joined hash inputs are short enough for the
digests to be computed in one block each. -/
def tradeA : TradeData :=
  { source := "house_clerk", filing_id := "1", asset_description := some "A",
    ticker := some "A", transaction_type := some "buy",
    transaction_date := some "2024-01-15", amount_range := some "x" }

/-- The same trade as `tradeA` but from filing id 2. -/
def tradeB : TradeData := { tradeA with filing_id := "2" }

set_option maxRecDepth 1000000 in
set_option maxHeartbeats 4000000 in
theorem c2_witness :
    tradesHashUnique (ingestTrades [] [tradeA, tradeB])
    ∧ (ingestTrades [] [tradeA, tradeB]).length = 2
    ∧ (ingestTrades [] [tradeA, tradeA]).length = 1 :=
  ⟨c2_trades_hash_unique.2.1 [] [tradeA, tradeB] (by decide),
   c2_trades_hash_unique.2.2.2.2.1 tradeA tradeB (by decide),
   c2_trades_hash_unique.2.2.2.2.2 tradeA⟩

/-! ## The politicians table

Columns and declared constraints of `politicians` as created by the
fresh-schema migration, and the later migration that removes the
filing-specific columns `doc_id` and `filing_date`. -/

/-- The columns of `politicians` in the fresh-schema migration. -/
def politiciansColumnsFresh : List String :=
  ["id", "full_name", "first_name", "last_name", "chamber", "state", "district",
   "party", "bioguide_id", "external_ids", "created_at", "updated_at"]

/-- Migration 012: drop the columns `doc_id` and `filing_date` from the
politicians table when they are present. -/
def dropPoliticianFilingColumns (cols : List String) : List String :=
  (cols.filter (fun c => c ≠ "doc_id")).filter (fun c => c ≠ "filing_date")

/-- The politicians columns after migration 012. -/
def politiciansColumns : List String :=
  dropPoliticianFilingColumns politiciansColumnsFresh

/-- The single-table unique constraints declared on `politicians` in the
fresh-schema migration: besides the primary key `id`, only
`bioguide_id` is UNIQUE. -/
def politiciansUniqueColumnSets : List (List String) := [["bioguide_id"]]

/-- The primary key of `politicians`. -/
def politiciansPrimaryKey : List String := ["id"]

/-- A row of the `politicians` table. -/
structure PolRec where
  id : Nat
  full_name : String
  first_name : Option String
  last_name : Option String
  chamber : Option String
  state : Option String
  district : Option String
  party : Option String
  bioguide_id : Option String
deriving DecidableEq

/-- Everything the politicians DDL itself enforces on a set of rows:
distinct primary keys, distinct non-null `bioguide_id` values (UNIQUE
ignores nulls), and the chamber CHECK constraint. No constraint
mentions `(full_name, state, district)`. -/
def politiciansSchemaOK (rows : List PolRec) : Prop :=
  List.Pairwise (fun a b => a.id ≠ b.id ∧
    (a.bioguide_id = none ∨ b.bioguide_id = none ∨ a.bioguide_id ≠ b.bioguide_id)) rows
  ∧ ∀ r ∈ rows, r.chamber = none ∨ r.chamber = some "house" ∨ r.chamber = some "senate"

instance (rows : List PolRec) : Decidable (politiciansSchemaOK rows) := by
  unfold politiciansSchemaOK
  infer_instance

/-- The identity key by which the worker looks politicians up. -/
def polKey (r : PolRec) : String × Option String × Option String :=
  (r.full_name, r.state, r.district)

/-- The incoming identity fields of one normalized politician record. -/
structure PolData where
  full_name : String
  first_name : Option String
  last_name : Option String
  chamber : Option String
  state : Option String
  district : Option String
  party : Option String
deriving DecidableEq

/-- The identity key of an incoming record. -/
def polDataKey (d : PolData) : String × Option String × Option String :=
  (d.full_name, d.state, d.district)

/-- Merge-preferring-existing on one field: an existing non-null value
is kept; a previously-null field is filled from the incoming value
unless the incoming value is null or blank. -/
def fillField (old incoming : Option String) : Option String :=
  match old with
  | some v => some v
  | none =>
    match incoming with
    | some s => if s = "" then none else some s
    | none => none

/-- Modelled from the spec: the on-hit merge of the politician upsert
(the worker source is absent). Identity fields are never overwritten
with null or blank incoming values; only previously-null fields are
filled. -/
def mergePol (r : PolRec) (d : PolData) : PolRec :=
  { r with
    first_name := fillField r.first_name d.first_name,
    last_name := fillField r.last_name d.last_name,
    chamber := fillField r.chamber d.chamber,
    state := fillField r.state d.state,
    district := fillField r.district d.district,
    party := fillField r.party d.party }

/-- The politician row inserted for an unseen identity key. -/
def newPol (idv : Nat) (d : PolData) : PolRec :=
  { id := idv, full_name := d.full_name, first_name := d.first_name,
    last_name := d.last_name, chamber := d.chamber, state := d.state,
    district := d.district, party := d.party, bioguide_id := none }

/-- Look a politician up by `(full_name, state, district)`. -/
def findPol (rows : List PolRec) (d : PolData) : Option PolRec :=
  rows.find? (fun r => decide (polKey r = polDataKey d))

/-- Modelled from the spec: the politician upsert of the worker (absent
from the checked sources): look up by `(full_name, state, district)`;
insert when absent; on hit, merge preferring existing values. -/
def upsertPol (rows : List PolRec) (d : PolData) : List PolRec :=
  match findPol rows d with
  | some _ => rows.map (fun r => if polKey r = polDataKey d then mergePol r d else r)
  | none => rows ++ [newPol rows.length d]

/-- No two rows share the identity key `(full_name, state, district)`. -/
def polWf (rows : List PolRec) : Prop :=
  List.Pairwise (fun a b => polKey a ≠ polKey b) rows

instance (rows : List PolRec) : Decidable (polWf rows) := by
  unfold polWf
  infer_instance

theorem fillField_some (v : String) (x : Option String) :
    fillField (some v) x = some v := rfl

theorem fillField_self (x : Option String) : fillField x x = x := by
  cases x with
  | none => rfl
  | some v => rfl

theorem mergePol_key {r : PolRec} {d : PolData} (h : polKey r = polDataKey d) :
    polKey (mergePol r d) = polKey r := by
  have h2 : r.state = d.state := congrArg (fun p => p.2.1) h
  have h3 : r.district = d.district := congrArg (fun p => p.2.2) h
  show (r.full_name, fillField r.state d.state, fillField r.district d.district)
      = (r.full_name, r.state, r.district)
  rw [h2, h3, fillField_self, fillField_self]

theorem upsertPol_keyPreserving (rows : List PolRec) (d : PolData) (r : PolRec)
    (_hr : r ∈ rows) :
    polKey (if polKey r = polDataKey d then mergePol r d else r) = polKey r := by
  split
  · exact mergePol_key (by assumption)
  · rfl

theorem polWf_upsert {rows : List PolRec} (d : PolData) (hwf : polWf rows) :
    polWf (upsertPol rows d) := by
  unfold upsertPol
  cases hfind : findPol rows d with
  | some r0 =>
      unfold polWf
      rw [List.pairwise_map]
      refine hwf.imp_of_mem ?_
      intro a b ha hb hab
      rw [upsertPol_keyPreserving rows d a ha, upsertPol_keyPreserving rows d b hb]
      exact hab
  | none =>
      unfold polWf
      rw [List.pairwise_append]
      refine ⟨hwf, List.pairwise_singleton _ _, ?_⟩
      intro a ha b hb
      rw [List.mem_singleton] at hb
      subst hb
      have hnone := List.find?_eq_none.mp hfind a ha
      intro hk
      apply hnone
      rw [decide_eq_true_eq]
      calc polKey a = polKey (newPol rows.length d) := hk
        _ = polDataKey d := rfl

/-- The politicians-table counterexample: two rows with distinct ids and
identical `(full_name, state, district)` that satisfy every constraint
the politicians DDL declares. -/
def polDup1 : PolRec :=
  { id := 1, full_name := "Richard Aaron", first_name := some "Richard",
    last_name := some "Aaron", chamber := some "house", state := some "MI",
    district := some "04", party := some "D", bioguide_id := none }

/-- A second row identical to `polDup1` except for its id. -/
def polDup2 : PolRec := { polDup1 with id := 2 }

/-- C4, counterexample. The politicians table declares no unique
constraint on `(full_name, state, district)` — its only unique column
sets are the primary key `id` and `bioguide_id` — and the schema as
declared admits two rows with distinct ids and the same
`(full_name, state, district)` tuple, so the claimed enforcement by a
unique constraint does not hold on the code. -/
theorem c4_counterexample :
    politiciansSchemaOK [polDup1, polDup2]
    ∧ polDup1.id ≠ polDup2.id
    ∧ polKey polDup1 = polKey polDup2
    ∧ ["full_name", "state", "district"] ∉ politiciansUniqueColumnSets
    ∧ ["full_name", "state", "district"] ≠ politiciansPrimaryKey := by
  decide

/-- C4, amended. At most one politician record per
`(full_name, state, district)` is maintained by the application-level
look-up-then-insert upsert (modelled from the spec, the worker source
being absent): the upsert preserves key uniqueness one record at a
time and over any batch. The datastore schema itself declares no
unique constraint on the tuple, so the invariant rests on the upsert
discipline, not on a database constraint. -/
theorem c4_politician_key_unique_amended :
    (∀ rows (d : PolData), polWf rows → polWf (upsertPol rows d))
    ∧ (∀ rows (ds : List PolData), polWf rows → polWf (ds.foldl upsertPol rows)) := by
  refine ⟨fun rows d => polWf_upsert d, ?_⟩
  intro rows ds
  induction ds generalizing rows with
  | nil => exact fun h => h
  | cons d rest ih =>
      intro h
      exact ih (upsertPol rows d) (polWf_upsert d h)

/-- An incoming record matching `polDup1` in key but with all optional
fields null. -/
def polDataNull : PolData :=
  { full_name := "Richard Aaron", first_name := none, last_name := none,
    chamber := none, state := some "MI", district := some "04", party := none }

theorem c4_witness :
    polWf (upsertPol [polDup1] polDataNull)
    ∧ polWf (([polDataNull] : List PolData).foldl upsertPol []) :=
  ⟨c4_politician_key_unique_amended.1 [polDup1] polDataNull (by decide),
   c4_politician_key_unique_amended.2 [] [polDataNull] (by decide)⟩

/-! ## The disclosures table

One row of `disclosures` after the rename migration: the unique
constraint `disclosures_politician_id_source_doc_id_key` covers
`(politician_id, source, doc_id)`. -/

/-- A row of the `disclosures` table. -/
structure DiscRec where
  id : Nat
  politician_id : Nat
  source : String
  doc_id : String
  filing_type : Option String
  filed_date : Option String
deriving DecidableEq

/-- The unique key of a disclosure row. -/
def discKey (r : DiscRec) : Nat × String × String := (r.politician_id, r.source, r.doc_id)

/-- The unique constraint on `(politician_id, source, doc_id)`. -/
def discWf (rows : List DiscRec) : Prop :=
  List.Pairwise (fun a b => discKey a ≠ discKey b) rows

instance (rows : List DiscRec) : Decidable (discWf rows) := by
  unfold discWf
  infer_instance

/-- One normalized disclosure record arriving from the parser. -/
structure DiscData where
  politician_id : Nat
  source : String
  doc_id : String
  filing_type : Option String
  filed_date : Option String
deriving DecidableEq

/-- The unique key of an incoming disclosure record. -/
def discDataKey (d : DiscData) : Nat × String × String :=
  (d.politician_id, d.source, d.doc_id)

/-- Some stored disclosure carries the given key. -/
def keyPresentDisc (rows : List DiscRec) (k : Nat × String × String) : Prop :=
  ∃ r ∈ rows, discKey r = k

instance (rows : List DiscRec) (k : Nat × String × String) :
    Decidable (keyPresentDisc rows k) := by
  unfold keyPresentDisc
  infer_instance

/-- How one disclosure insert ended. -/
inductive InsertOutcome where
  | inserted
  | duplicateSkip
  | errorRaised
deriving DecidableEq

/-- The disclosure row stored for an incoming record. -/
def mkDiscRec (idv : Nat) (d : DiscData) : DiscRec :=
  { id := idv, politician_id := d.politician_id, source := d.source,
    doc_id := d.doc_id, filing_type := d.filing_type, filed_date := d.filed_date }

/-- Modelled from the spec: the disclosure insert of the upserter,
absent from the checked sources. Look up by
`(politician_id, source, doc_id)`; when present, skip and report a
duplicate skip rather than an error; otherwise insert. -/
def insertDisc (rows : List DiscRec) (d : DiscData) : List DiscRec × InsertOutcome :=
  if keyPresentDisc rows (discDataKey d) then (rows, InsertOutcome.duplicateSkip)
  else (rows ++ [mkDiscRec rows.length d], InsertOutcome.inserted)

/-- Insert a batch of disclosure records in order. -/
def ingestDiscs (rows : List DiscRec) (ds : List DiscData) : List DiscRec :=
  ds.foldl (fun acc d => (insertDisc acc d).1) rows

theorem keyPresentDisc_insert {rows : List DiscRec} {k : Nat × String × String}
    (d : DiscData) (hp : keyPresentDisc rows k) :
    keyPresentDisc (insertDisc rows d).1 k := by
  unfold insertDisc
  split
  · exact hp
  · obtain ⟨r, hr, hh⟩ := hp
    exact ⟨r, List.mem_append_left _ hr, hh⟩

theorem keyPresentDisc_ingest {rows : List DiscRec} {k : Nat × String × String}
    (ds : List DiscData) (hp : keyPresentDisc rows k) :
    keyPresentDisc (ingestDiscs rows ds) k := by
  induction ds generalizing rows with
  | nil => exact hp
  | cons d rest ih => exact ih (keyPresentDisc_insert d hp)

theorem keyPresentDisc_insert_self (rows : List DiscRec) (d : DiscData) :
    keyPresentDisc (insertDisc rows d).1 (discDataKey d) := by
  unfold insertDisc
  split
  · assumption
  · exact ⟨mkDiscRec rows.length d,
      List.mem_append_right _ (List.mem_singleton_self _), rfl⟩

theorem insertDisc_noop {rows : List DiscRec} {d : DiscData}
    (hp : keyPresentDisc rows (discDataKey d)) :
    insertDisc rows d = (rows, InsertOutcome.duplicateSkip) := by
  unfold insertDisc
  exact if_pos hp

theorem ingestDiscs_noop {rows : List DiscRec} {ds : List DiscData}
    (hp : ∀ d ∈ ds, keyPresentDisc rows (discDataKey d)) :
    ingestDiscs rows ds = rows := by
  induction ds with
  | nil => rfl
  | cons d rest ih =>
      unfold ingestDiscs
      rw [List.foldl_cons]
      have : (insertDisc rows d).1 = rows := by
        rw [insertDisc_noop (hp d (List.mem_cons_self d rest))]
      rw [this]
      exact ih fun x hx => hp x (List.mem_cons_of_mem d hx)

theorem keyPresentDisc_ingest_all (rows : List DiscRec) (ds : List DiscData) :
    ∀ d ∈ ds, keyPresentDisc (ingestDiscs rows ds) (discDataKey d) := by
  induction ds generalizing rows with
  | nil => intro d hd; cases hd
  | cons d0 rest ih =>
      intro d hd
      rcases List.mem_cons.mp hd with h | h
      · subst h
        exact keyPresentDisc_ingest rest (keyPresentDisc_insert_self rows d)
      · exact ih (insertDisc rows d0).1 d h

theorem discWf_insert {rows : List DiscRec} (d : DiscData) (hwf : discWf rows) :
    discWf (insertDisc rows d).1 := by
  unfold insertDisc
  split
  · exact hwf
  · rename_i hnp
    unfold discWf
    rw [List.pairwise_append]
    refine ⟨hwf, List.Pairwise.cons (fun b hb => absurd hb (List.not_mem_nil b))
      List.Pairwise.nil, ?_⟩
    intro a ha b hb
    rw [List.mem_singleton] at hb
    subst hb
    intro hk
    exact hnp ⟨a, ha, hk⟩

theorem discWf_ingest {rows : List DiscRec} (ds : List DiscData) (hwf : discWf rows) :
    discWf (ingestDiscs rows ds) := by
  induction ds generalizing rows with
  | nil => exact hwf
  | cons d rest ih => exact ih (discWf_insert d hwf)

/-- C3. No two stored disclosures share the
`(politician_id, source, doc_id)` triple: the uniqueness invariant is
preserved by every insert and every batch; an insert whose key is
already present leaves the table unchanged and reports a duplicate
skip; no insert ever reports an error; and re-ingesting the same batch
creates no new disclosure rows. -/
theorem c3_disclosure_key_unique :
    (∀ rows (d : DiscData), discWf rows → discWf (insertDisc rows d).1)
    ∧ (∀ rows (ds : List DiscData), discWf rows → discWf (ingestDiscs rows ds))
    ∧ (∀ rows (d : DiscData), keyPresentDisc rows (discDataKey d) →
        insertDisc rows d = (rows, InsertOutcome.duplicateSkip))
    ∧ (∀ rows (d : DiscData), (insertDisc rows d).2 ≠ InsertOutcome.errorRaised)
    ∧ (∀ rows (ds : List DiscData),
        ingestDiscs (ingestDiscs rows ds) ds = ingestDiscs rows ds) := by
  refine ⟨fun rows d => discWf_insert d, fun rows ds => discWf_ingest ds,
    fun rows d => insertDisc_noop, ?_, ?_⟩
  · intro rows d
    unfold insertDisc
    split <;> simp
  · intro rows ds
    exact ingestDiscs_noop (keyPresentDisc_ingest_all rows ds)

/-- The disclosure record of the concrete bulk-row scenario. -/
def discSample : DiscData :=
  { politician_id := 0, source := "house_clerk", doc_id := "40003749",
    filing_type := some "P", filed_date := some "2025-03-24" }

theorem c3_witness :
    discWf (insertDisc [] discSample).1
    ∧ insertDisc (insertDisc [] discSample).1 discSample
        = ((insertDisc [] discSample).1, InsertOutcome.duplicateSkip) :=
  ⟨c3_disclosure_key_unique.1 [] discSample (by decide),
   c3_disclosure_key_unique.2.2.1 (insertDisc [] discSample).1 discSample (by decide)⟩

/-! ## Frame effects of the politician upsert -/

theorem fillField_of_ne_none {old : Option String} (incoming : Option String)
    (h : old ≠ none) : fillField old incoming = old := by
  cases old with
  | none => exact absurd rfl h
  | some v => rfl

/-- C7. The politician record carries no filing-specific columns: after
migration 012 neither `doc_id` nor `filing_date` is a politicians
column, and the migration removes both from any column list it is
applied to. The (spec-modelled) on-hit merge never overwrites a
non-null identity field — in particular a stored district survives any
incoming record — a field that changes at all must have been null
before, incoming null values fill nothing, and through the full upsert
a row with district `04` keeps id, name and district `04`. -/
theorem c7_politician_upsert_frame :
    ("doc_id" ∉ politiciansColumns ∧ "filing_date" ∉ politiciansColumns)
    ∧ (∀ cols : List String, "doc_id" ∉ dropPoliticianFilingColumns cols
        ∧ "filing_date" ∉ dropPoliticianFilingColumns cols)
    ∧ (∀ (r : PolRec) (d : PolData), r.district ≠ none → (mergePol r d).district = r.district)
    ∧ (∀ (r : PolRec) (d : PolData), r.first_name ≠ none →
        (mergePol r d).first_name = r.first_name)
    ∧ (∀ (r : PolRec) (d : PolData), r.last_name ≠ none →
        (mergePol r d).last_name = r.last_name)
    ∧ (∀ (r : PolRec) (d : PolData), r.state ≠ none → (mergePol r d).state = r.state)
    ∧ (∀ (r : PolRec) (d : PolData), r.party ≠ none → (mergePol r d).party = r.party)
    ∧ (∀ (r : PolRec) (d : PolData), r.chamber ≠ none → (mergePol r d).chamber = r.chamber)
    ∧ (∀ (r : PolRec) (d : PolData), (mergePol r d).district ≠ r.district → r.district = none)
    ∧ (∀ (r : PolRec) (d : PolData), d.district = none → (mergePol r d).district = r.district)
    ∧ (∀ (rows : List PolRec) (d : PolData) (r : PolRec), r ∈ rows →
        r.district = some "04" →
        ∃ r2 ∈ upsertPol rows d, r2.id = r.id ∧ r2.full_name = r.full_name
          ∧ r2.district = some "04") := by
  refine ⟨⟨by decide, by decide⟩, ?_, ?_, ?_, ?_, ?_, ?_, ?_, ?_, ?_, ?_⟩
  · intro cols
    constructor
    · intro hmem
      unfold dropPoliticianFilingColumns at hmem
      rw [List.mem_filter] at hmem
      have := (List.mem_filter.mp hmem.1).2
      simp at this
    · intro hmem
      unfold dropPoliticianFilingColumns at hmem
      have := (List.mem_filter.mp hmem).2
      simp at this
  · exact fun r d h => fillField_of_ne_none d.district h
  · exact fun r d h => fillField_of_ne_none d.first_name h
  · exact fun r d h => fillField_of_ne_none d.last_name h
  · exact fun r d h => fillField_of_ne_none d.state h
  · exact fun r d h => fillField_of_ne_none d.party h
  · exact fun r d h => fillField_of_ne_none d.chamber h
  · intro r d hne
    by_contra hnn
    exact hne (fillField_of_ne_none d.district hnn)
  · intro r d hd
    show fillField r.district d.district = r.district
    rw [hd]
    rcases hrd : r.district with _ | v <;> rfl
  · intro rows d r hr h04
    unfold upsertPol
    cases hfind : findPol rows d with
    | some r0 =>
        refine ⟨if polKey r = polDataKey d then mergePol r d else r,
          List.mem_map.mpr ⟨r, hr, rfl⟩, ?_⟩
        split
        · exact ⟨rfl, rfl, by
            show fillField r.district d.district = some "04"
            rw [h04]
            rfl⟩
        · exact ⟨rfl, rfl, h04⟩
    | none => exact ⟨r, List.mem_append_left _ hr, rfl, rfl, h04⟩

/-- An existing politician row with district 04 for the concrete
scenario of the spec. -/
def polWithDistrict : PolRec :=
  { id := 7, full_name := "Richard Aaron", first_name := some "Richard",
    last_name := some "Aaron", chamber := some "house", state := some "MI",
    district := some "04", party := some "D", bioguide_id := none }

/-- An incoming record for the same politician with a null district. -/
def polIncomingNullDistrict : PolData :=
  { full_name := "Richard Aaron", first_name := some "Richard",
    last_name := some "Aaron", chamber := some "house", state := some "MI",
    district := none, party := some "D" }

theorem c7_witness :
    (mergePol polWithDistrict polIncomingNullDistrict).district = some "04"
    ∧ ∃ r2 ∈ upsertPol [polWithDistrict] polIncomingNullDistrict,
        r2.id = polWithDistrict.id ∧ r2.full_name = polWithDistrict.full_name
          ∧ r2.district = some "04" :=
  ⟨c7_politician_upsert_frame.2.2.1 polWithDistrict polIncomingNullDistrict (by decide),
   c7_politician_upsert_frame.2.2.2.2.2.2.2.2.2.2 [polWithDistrict]
     polIncomingNullDistrict polWithDistrict (by decide) (by decide)⟩

/-! ## Absorption lemmas for the politician upsert

A record is absorbed by a table when upserting it again changes
nothing. These lemmas show that an upsert absorbs its own record and
that absorption survives later upserts of other records. -/

theorem map_eq_self_of_mem {α : Type} {l : List α} {f : α → α}
    (h : ∀ a ∈ l, f a = a) : l.map f = l := by
  induction l with
  | nil => rfl
  | cons a t ih =>
      rw [List.map_cons, h a (List.mem_cons_self a t),
        ih fun x hx => h x (List.mem_cons_of_mem a hx)]

theorem of_map_eq_self {α : Type} {l : List α} {f : α → α}
    (h : l.map f = l) : ∀ a ∈ l, f a = a := by
  induction l with
  | nil => intro a ha; cases ha
  | cons a t ih =>
      rw [List.map_cons] at h
      have h1 := List.head_eq_of_cons_eq h
      have h2 := List.tail_eq_of_cons_eq h
      intro x hx
      rcases List.mem_cons.mp hx with hx | hx
      · subst hx; exact h1
      · exact ih h2 x hx

theorem fillField_idem (a b : Option String) :
    fillField (fillField a b) b = fillField a b := by
  cases a with
  | some v => rfl
  | none =>
      cases b with
      | none => rfl
      | some s =>
          by_cases hs : s = ""
          · show fillField (fillField none (some s)) (some s) = fillField none (some s)
            simp [fillField, hs]
          · show fillField (fillField none (some s)) (some s) = fillField none (some s)
            simp [fillField, hs]

theorem fillField_stable {a b : Option String} (b2 : Option String)
    (h : fillField a b = a) : fillField (fillField a b2) b = fillField a b2 := by
  cases a with
  | some v => rfl
  | none =>
      cases hx : fillField none b2 with
      | some w => rfl
      | none => exact h

theorem mergePol_idem (r : PolRec) (d : PolData) :
    mergePol (mergePol r d) d = mergePol r d := by
  obtain ⟨rid, rfn, rf, rl, rc, rs, rd, rp, rb⟩ := r
  simp only [mergePol, PolRec.mk.injEq, and_true, true_and]
  exact ⟨fillField_idem rf d.first_name, fillField_idem rl d.last_name,
    fillField_idem rc d.chamber, fillField_idem rs d.state,
    fillField_idem rd d.district, fillField_idem rp d.party⟩

theorem mergePol_stable {r : PolRec} {d : PolData} (d2 : PolData)
    (h : mergePol r d = r) : mergePol (mergePol r d2) d = mergePol r d2 := by
  have h1 : fillField r.first_name d.first_name = r.first_name := congrArg PolRec.first_name h
  have h2 : fillField r.last_name d.last_name = r.last_name := congrArg PolRec.last_name h
  have h3 : fillField r.chamber d.chamber = r.chamber := congrArg PolRec.chamber h
  have h4 : fillField r.state d.state = r.state := congrArg PolRec.state h
  have h5 : fillField r.district d.district = r.district := congrArg PolRec.district h
  have h6 : fillField r.party d.party = r.party := congrArg PolRec.party h
  obtain ⟨rid, rfn, rf, rl, rc, rs, rd, rp, rb⟩ := r
  simp only [mergePol, PolRec.mk.injEq, and_true, true_and] at h1 h2 h3 h4 h5 h6 ⊢
  exact ⟨fillField_stable d2.first_name h1, fillField_stable d2.last_name h2,
    fillField_stable d2.chamber h3, fillField_stable d2.state h4,
    fillField_stable d2.district h5, fillField_stable d2.party h6⟩

theorem mergePol_newPol (n : Nat) (d : PolData) :
    mergePol (newPol n d) d = newPol n d := by
  simp only [mergePol, newPol, PolRec.mk.injEq, and_true, true_and]
  exact ⟨fillField_self d.first_name, fillField_self d.last_name,
    fillField_self d.chamber, fillField_self d.state,
    fillField_self d.district, fillField_self d.party⟩

theorem mergePol_id (r : PolRec) (d : PolData) : (mergePol r d).id = r.id := rfl

theorem findPol_cons_pos {a : PolRec} {dp : PolData} (t : List PolRec)
    (hk : polKey a = polDataKey dp) : findPol (a :: t) dp = some a := by
  unfold findPol
  simp [List.find?_cons, hk]

theorem findPol_cons_neg {a : PolRec} {dp : PolData} (t : List PolRec)
    (hk : ¬polKey a = polDataKey dp) : findPol (a :: t) dp = findPol t dp := by
  unfold findPol
  simp [List.find?_cons, hk]

theorem findPol_append_none {pols : List PolRec} {dp : PolData} (l : List PolRec)
    (h : findPol pols dp = none) : findPol (pols ++ l) dp = findPol l dp := by
  induction pols with
  | nil => rfl
  | cons a t ih =>
      by_cases hk : polKey a = polDataKey dp
      · rw [findPol_cons_pos t hk] at h
        cases h
      · rw [findPol_cons_neg t hk] at h
        rw [List.cons_append, findPol_cons_neg (t ++ l) hk]
        exact ih h

theorem findPol_append_some {pols : List PolRec} {dp : PolData} {r : PolRec}
    (l : List PolRec) (h : findPol pols dp = some r) :
    findPol (pols ++ l) dp = some r := by
  induction pols with
  | nil => cases h
  | cons a t ih =>
      by_cases hk : polKey a = polDataKey dp
      · rw [findPol_cons_pos t hk] at h
        rw [List.cons_append, findPol_cons_pos (t ++ l) hk]
        exact h
      · rw [findPol_cons_neg t hk] at h
        rw [List.cons_append, findPol_cons_neg (t ++ l) hk]
        exact ih h

theorem findPol_some_props {pols : List PolRec} {dp : PolData} {r : PolRec}
    (h : findPol pols dp = some r) : r ∈ pols ∧ polKey r = polDataKey dp := by
  unfold findPol at h
  refine ⟨List.mem_of_find?_eq_some h, ?_⟩
  have := List.find?_some h
  rwa [decide_eq_true_eq] at this

theorem upsertPol_idPreserving (d : PolData) (r : PolRec) :
    (if polKey r = polDataKey d then mergePol r d else r).id = r.id := by
  split
  · rfl
  · rfl

/-- The id under which a politician record is stored, as the worker
reads it back after its upsert: the id of the first row matching the
identity key (0 when absent, which the pipeline never relies on since
it always looks up immediately after upserting). -/
def polIdFor (pols : List PolRec) (dp : PolData) : Nat :=
  match findPol pols dp with
  | some r => r.id
  | none => 0

theorem polIdFor_map {pols : List PolRec} {f : PolRec → PolRec} (dp : PolData)
    (hkey : ∀ r ∈ pols, polKey (f r) = polKey r)
    (hid : ∀ r ∈ pols, (f r).id = r.id) :
    polIdFor (pols.map f) dp = polIdFor pols dp := by
  induction pols with
  | nil => rfl
  | cons a t ih =>
      have hkeya := hkey a (List.mem_cons_self a t)
      by_cases hk : polKey a = polDataKey dp
      · unfold polIdFor
        rw [List.map_cons, findPol_cons_pos (t.map f) (hkeya.trans hk),
          findPol_cons_pos t hk]
        exact hid a (List.mem_cons_self a t)
      · unfold polIdFor
        rw [List.map_cons,
          findPol_cons_neg (t.map f) (fun hd => hk (hkeya.symm.trans hd)),
          findPol_cons_neg t hk]
        exact ih (fun r hr => hkey r (List.mem_cons_of_mem a hr))
          (fun r hr => hid r (List.mem_cons_of_mem a hr))

theorem upsertPol_absorbs (pols : List PolRec) (dp : PolData) :
    upsertPol (upsertPol pols dp) dp = upsertPol pols dp := by
  cases hfind : findPol pols dp with
  | none =>
      have hres : upsertPol pols dp = pols ++ [newPol pols.length dp] := by
        unfold upsertPol
        rw [hfind]
      rw [hres]
      unfold upsertPol
      rw [findPol_append_none _ hfind]
      have hfind2 : findPol [newPol pols.length dp] dp = some (newPol pols.length dp) := by
        unfold findPol
        rw [List.find?_cons]
        have : polKey (newPol pols.length dp) = polDataKey dp := rfl
        rw [this]
        simp
      rw [hfind2]
      apply map_eq_self_of_mem
      intro a ha
      rcases List.mem_append.mp ha with ha | ha
      · rw [if_neg]
        intro hk
        have := List.find?_eq_none.mp hfind a ha
        rw [decide_eq_true_eq] at this
        exact this hk
      · rw [List.mem_singleton] at ha
        subst ha
        have hknew : polKey (newPol pols.length dp) = polDataKey dp := rfl
        rw [if_pos hknew]
        exact mergePol_newPol pols.length dp
  | some r0 =>
      have hres : upsertPol pols dp
          = pols.map (fun r => if polKey r = polDataKey dp then mergePol r dp else r) := by
        unfold upsertPol
        rw [hfind]
      obtain ⟨hr0mem, hr0key⟩ := findPol_some_props hfind
      rw [hres]
      unfold upsertPol
      cases hfind2 : findPol (pols.map
          (fun r => if polKey r = polDataKey dp then mergePol r dp else r)) dp with
      | none =>
          exfalso
          have hmem2 : (if polKey r0 = polDataKey dp then mergePol r0 dp else r0)
              ∈ pols.map (fun r => if polKey r = polDataKey dp then mergePol r dp else r) :=
            List.mem_map.mpr ⟨r0, hr0mem, rfl⟩
          have hnone := List.find?_eq_none.mp hfind2 _ hmem2
          rw [decide_eq_true_eq] at hnone
          apply hnone
          rw [upsertPol_keyPreserving pols dp r0 hr0mem]
          exact hr0key
      | some r1 =>
          rw [List.map_map]
          apply List.map_congr_left
          intro a ha
          show (if polKey (if polKey a = polDataKey dp then mergePol a dp else a)
              = polDataKey dp
            then mergePol (if polKey a = polDataKey dp then mergePol a dp else a) dp
            else (if polKey a = polDataKey dp then mergePol a dp else a))
            = (if polKey a = polDataKey dp then mergePol a dp else a)
          rw [upsertPol_keyPreserving pols dp a ha]
          by_cases hk : polKey a = polDataKey dp
          · simp only [if_pos hk]
            exact mergePol_idem a dp
          · simp only [if_neg hk]

theorem upsertPol_absorbed_find {pols : List PolRec} {dp : PolData}
    (h : upsertPol pols dp = pols) : ∃ r, findPol pols dp = some r := by
  cases hfind : findPol pols dp with
  | some r => exact ⟨r, rfl⟩
  | none =>
      exfalso
      have hres : upsertPol pols dp = pols ++ [newPol pols.length dp] := by
        unfold upsertPol
        rw [hfind]
      rw [hres] at h
      have := congrArg List.length h
      rw [List.length_append, List.length_singleton] at this
      omega

theorem upsertPol_absorbed_merge {pols : List PolRec} {dp : PolData}
    (h : upsertPol pols dp = pols) :
    ∀ r ∈ pols, polKey r = polDataKey dp → mergePol r dp = r := by
  obtain ⟨r0, hfind⟩ := upsertPol_absorbed_find h
  have hres : upsertPol pols dp
      = pols.map (fun r => if polKey r = polDataKey dp then mergePol r dp else r) := by
    unfold upsertPol
    rw [hfind]
  rw [hres] at h
  intro r hr hk
  have := of_map_eq_self h r hr
  rwa [if_pos hk] at this

theorem upsertPol_stable {pols : List PolRec} {dp : PolData} (dp2 : PolData)
    (h : upsertPol pols dp = pols) :
    upsertPol (upsertPol pols dp2) dp = upsertPol pols dp2 := by
  obtain ⟨r0, hfind⟩ := upsertPol_absorbed_find h
  obtain ⟨hr0mem, hr0key⟩ := findPol_some_props hfind
  have hmerge := upsertPol_absorbed_merge h
  cases hfind2 : findPol pols dp2 with
  | none =>
      have hres2 : upsertPol pols dp2 = pols ++ [newPol pols.length dp2] := by
        unfold upsertPol
        rw [hfind2]
      rw [hres2]
      unfold upsertPol
      rw [findPol_append_some _ hfind]
      apply map_eq_self_of_mem
      intro a ha
      rcases List.mem_append.mp ha with ha | ha
      · by_cases hk : polKey a = polDataKey dp
        · rw [if_pos hk]
          exact hmerge a ha hk
        · rw [if_neg hk]
      · rw [List.mem_singleton] at ha
        subst ha
        rw [if_neg]
        intro hk
        have hnew : polKey (newPol pols.length dp2) = polDataKey dp2 := rfl
        rw [hnew] at hk
        have := List.find?_eq_none.mp hfind2 r0 hr0mem
        rw [decide_eq_true_eq] at this
        exact this (hr0key.trans hk.symm)
  | some r1 =>
      have hres2 : upsertPol pols dp2
          = pols.map (fun r => if polKey r = polDataKey dp2 then mergePol r dp2 else r) := by
        unfold upsertPol
        rw [hfind2]
      rw [hres2]
      unfold upsertPol
      cases hfind3 : findPol (pols.map
          (fun r => if polKey r = polDataKey dp2 then mergePol r dp2 else r)) dp with
      | none =>
          exfalso
          have hmem2 : (if polKey r0 = polDataKey dp2 then mergePol r0 dp2 else r0)
              ∈ pols.map (fun r => if polKey r = polDataKey dp2 then mergePol r dp2 else r) :=
            List.mem_map.mpr ⟨r0, hr0mem, rfl⟩
          have hnone := List.find?_eq_none.mp hfind3 _ hmem2
          rw [decide_eq_true_eq] at hnone
          apply hnone
          rw [upsertPol_keyPreserving pols dp2 r0 hr0mem]
          exact hr0key
      | some r2 =>
          rw [List.map_map]
          apply List.map_congr_left
          intro a ha
          show (if polKey (if polKey a = polDataKey dp2 then mergePol a dp2 else a)
              = polDataKey dp
            then mergePol (if polKey a = polDataKey dp2 then mergePol a dp2 else a) dp
            else (if polKey a = polDataKey dp2 then mergePol a dp2 else a))
            = (if polKey a = polDataKey dp2 then mergePol a dp2 else a)
          rw [upsertPol_keyPreserving pols dp2 a ha]
          by_cases hk : polKey a = polDataKey dp
          · simp only [if_pos hk]
            by_cases hk2 : polKey a = polDataKey dp2
            · simp only [if_pos hk2]
              exact mergePol_stable dp2 (hmerge a ha hk)
            · simp only [if_neg hk2]
              exact hmerge a ha hk
          · simp only [if_neg hk]

/-! ## The bulk pipeline

One bulk TXT record yields a politician upsert followed by a
disclosure insert linked to the politician id found after the upsert;
trade extraction then inserts hashed trades. All worker-side operations
are the spec-modelled ones above; the constraints they maintain are the
embedded schema constraints. -/

/-- One normalized bulk record: politician identity plus filing data. -/
structure BulkRecord where
  pol : PolData
  source : String
  doc_id : String
  filing_type : Option String
  filed_date : Option String
deriving DecidableEq

/-- The three-table datastore. -/
structure Store where
  pols : List PolRec
  discs : List DiscRec
  trades : List TradeRec
deriving DecidableEq

/-- The disclosure data of a bulk record once the politician id is
known. -/
def discDataOf (rec : BulkRecord) (pid : Nat) : DiscData :=
  { politician_id := pid, source := rec.source, doc_id := rec.doc_id,
    filing_type := rec.filing_type, filed_date := rec.filed_date }

/-- The politicians table after one bulk record. -/
def stepPols (pols : List PolRec) (rec : BulkRecord) : List PolRec :=
  upsertPol pols rec.pol

/-- The disclosures table after one bulk record: insert the disclosure
under the politician id read back after the upsert. -/
def stepDiscs (pols : List PolRec) (discs : List DiscRec) (rec : BulkRecord) :
    List DiscRec :=
  (insertDisc discs (discDataOf rec (polIdFor (stepPols pols rec) rec.pol))).1

/-- Modelled from the spec: ingesting one bulk record (worker source
absent): politician upsert, then disclosure insert under the politician
id found by looking the key up after the upsert. Trades are untouched
in Phase 1. -/
def ingestRecord (s : Store) (rec : BulkRecord) : Store :=
  { pols := stepPols s.pols rec, discs := stepDiscs s.pols s.discs rec,
    trades := s.trades }

/-- Phase 1 bulk ingestion over a batch of records. -/
def runBulk (s : Store) (recs : List BulkRecord) : Store :=
  recs.foldl ingestRecord s

/-- The full pipeline on fixed source input: bulk ingestion of the
records, then insertion of the extracted trades. -/
def runPipeline (s : Store) (recs : List BulkRecord) (tds : List TradeData) : Store :=
  { pols := (runBulk s recs).pols, discs := (runBulk s recs).discs,
    trades := ingestTrades (runBulk s recs).trades tds }

theorem insertDisc_fst_noop {rows : List DiscRec} {d : DiscData}
    (hp : keyPresentDisc rows (discDataKey d)) : (insertDisc rows d).1 = rows := by
  rw [insertDisc_noop hp]

theorem insertDisc_eq_imp_present {rows : List DiscRec} {d : DiscData}
    (h : (insertDisc rows d).1 = rows) : keyPresentDisc rows (discDataKey d) := by
  by_cases hp : keyPresentDisc rows (discDataKey d)
  · exact hp
  · exfalso
    unfold insertDisc at h
    rw [if_neg hp] at h
    have h2 : rows ++ [mkDiscRec rows.length d] = rows := h
    have := congrArg List.length h2
    rw [List.length_append, List.length_singleton] at this
    omega

theorem ingest_eq_self {s : Store} {rec : BulkRecord}
    (hp : stepPols s.pols rec = s.pols)
    (hd : stepDiscs s.pols s.discs rec = s.discs) :
    ingestRecord s rec = s := by
  unfold ingestRecord
  rw [hp, hd]

theorem absorbed_pols {s : Store} {rec : BulkRecord}
    (h : ingestRecord s rec = s) : stepPols s.pols rec = s.pols :=
  congrArg Store.pols h

theorem absorbed_discs {s : Store} {rec : BulkRecord}
    (h : ingestRecord s rec = s) : stepDiscs s.pols s.discs rec = s.discs :=
  congrArg Store.discs h

theorem stepPols_absorbs (pols : List PolRec) (rec : BulkRecord) :
    stepPols (stepPols pols rec) rec = stepPols pols rec :=
  upsertPol_absorbs pols rec.pol

theorem ingestRecord_absorbs (s : Store) (rec : BulkRecord) :
    ingestRecord (ingestRecord s rec) rec = ingestRecord s rec := by
  apply ingest_eq_self
  · exact stepPols_absorbs s.pols rec
  · show stepDiscs (stepPols s.pols rec) (stepDiscs s.pols s.discs rec) rec
        = stepDiscs s.pols s.discs rec
    unfold stepDiscs
    rw [stepPols_absorbs s.pols rec]
    apply insertDisc_fst_noop
    exact keyPresentDisc_insert_self s.discs
      (discDataOf rec (polIdFor (stepPols s.pols rec) rec.pol))

theorem polIdFor_stepPols_stable {pols : List PolRec} {dp : PolData} {r0 : PolRec}
    (hfind : findPol pols dp = some r0) (rec2 : BulkRecord) :
    polIdFor (stepPols pols rec2) dp = polIdFor pols dp := by
  unfold stepPols upsertPol
  cases hfind2 : findPol pols rec2.pol with
  | none =>
      unfold polIdFor
      rw [findPol_append_some _ hfind, hfind]
  | some r1 =>
      apply polIdFor_map
      · intro r hr
        exact upsertPol_keyPreserving pols rec2.pol r hr
      · intro r hr
        exact upsertPol_idPreserving rec2.pol r

theorem ingestRecord_stable {s : Store} {rec : BulkRecord}
    (h : ingestRecord s rec = s) (rec2 : BulkRecord) :
    ingestRecord (ingestRecord s rec2) rec = ingestRecord s rec2 := by
  have hP : upsertPol s.pols rec.pol = s.pols := absorbed_pols h
  have hD : stepDiscs s.pols s.discs rec = s.discs := absorbed_discs h
  obtain ⟨r0, hfind⟩ := upsertPol_absorbed_find hP
  apply ingest_eq_self
  · exact upsertPol_stable rec2.pol hP
  · show stepDiscs (stepPols s.pols rec2) (stepDiscs s.pols s.discs rec2) rec
        = stepDiscs s.pols s.discs rec2
    have hstep : stepPols (stepPols s.pols rec2) rec = stepPols s.pols rec2 :=
      upsertPol_stable rec2.pol hP
    have hpid0 : polIdFor (stepPols s.pols rec) rec.pol = polIdFor s.pols rec.pol := by
      show polIdFor (upsertPol s.pols rec.pol) rec.pol = polIdFor s.pols rec.pol
      rw [hP]
    unfold stepDiscs at hD
    rw [hpid0] at hD
    have hpres : keyPresentDisc s.discs
        (discDataKey (discDataOf rec (polIdFor s.pols rec.pol))) :=
      insertDisc_eq_imp_present hD
    unfold stepDiscs
    rw [hstep, polIdFor_stepPols_stable hfind rec2]
    apply insertDisc_fst_noop
    exact keyPresentDisc_insert _ hpres

theorem absorbed_runBulk_stable {s : Store} {rec : BulkRecord}
    (h : ingestRecord s rec = s) (l : List BulkRecord) :
    ingestRecord (runBulk s l) rec = runBulk s l := by
  induction l generalizing s with
  | nil => exact h
  | cons r2 t ih => exact ih (ingestRecord_stable h r2)

theorem runBulk_absorbs (recs : List BulkRecord) (s : Store) :
    ∀ rec ∈ recs, ingestRecord (runBulk s recs) rec = runBulk s recs := by
  induction recs generalizing s with
  | nil => intro rec h; cases h
  | cons r t ih =>
      intro rec hmem
      rcases List.mem_cons.mp hmem with hh | hh
      · subst hh
        exact absorbed_runBulk_stable (ingestRecord_absorbs s rec) t
      · exact ih (ingestRecord s r) rec hh

theorem runBulk_noop {s : Store} {recs : List BulkRecord}
    (h : ∀ rec ∈ recs, ingestRecord s rec = s) : runBulk s recs = s := by
  induction recs with
  | nil => rfl
  | cons r t ih =>
      unfold runBulk
      rw [List.foldl_cons, h r (List.mem_cons_self r t)]
      exact ih fun x hx => h x (List.mem_cons_of_mem r hx)

theorem runBulk_idem (s : Store) (recs : List BulkRecord) :
    runBulk (runBulk s recs) recs = runBulk s recs :=
  runBulk_noop (runBulk_absorbs recs s)

theorem ingest_trades_frame {s : Store} {rec : BulkRecord}
    (h : ingestRecord s rec = s) (T : List TradeRec) :
    ingestRecord { s with trades := T } rec = { s with trades := T } :=
  @ingest_eq_self { s with trades := T } rec (@absorbed_pols s rec h) (@absorbed_discs s rec h)

theorem runPipeline_idem (s : Store) (recs : List BulkRecord) (tds : List TradeData) :
    runPipeline (runPipeline s recs tds) recs tds = runPipeline s recs tds := by
  have habs : ∀ rec ∈ recs,
      ingestRecord (runPipeline s recs tds) rec = runPipeline s recs tds := by
    intro rec hrec
    have h := runBulk_absorbs recs s rec hrec
    exact ingest_trades_frame h (ingestTrades (runBulk s recs).trades tds)
  have hbulk : runBulk (runPipeline s recs tds) recs = runPipeline s recs tds :=
    runBulk_noop habs
  have htr : ingestTrades (runPipeline s recs tds).trades tds
      = (runPipeline s recs tds).trades := by
    show ingestTrades (ingestTrades (runBulk s recs).trades tds) tds
        = ingestTrades (runBulk s recs).trades tds
    exact ingestTrades_noop (hashPresent_ingest_all (runBulk s recs).trades tds)
  show ({ pols := (runBulk (runPipeline s recs tds) recs).pols,
          discs := (runBulk (runPipeline s recs tds) recs).discs,
          trades := ingestTrades (runBulk (runPipeline s recs tds) recs).trades tds }
        : Store)
      = runPipeline s recs tds
  rw [hbulk, htr]

/-- C6. Running the full pipeline twice on identical source input gives
the same store as running it once — in particular identical row counts
in the politicians, disclosures and trades tables and zero rows
inserted by the second run — and a bulk year re-run on its own is
likewise absorbed without side effects. -/
theorem c6_pipeline_idempotent :
    (∀ (s : Store) (recs : List BulkRecord),
        runBulk (runBulk s recs) recs = runBulk s recs)
    ∧ (∀ (s : Store) (recs : List BulkRecord) (tds : List TradeData),
        runPipeline (runPipeline s recs tds) recs tds = runPipeline s recs tds)
    ∧ (∀ (s : Store) (recs : List BulkRecord) (tds : List TradeData),
        (runPipeline (runPipeline s recs tds) recs tds).pols.length
            = (runPipeline s recs tds).pols.length
        ∧ (runPipeline (runPipeline s recs tds) recs tds).discs.length
            = (runPipeline s recs tds).discs.length
        ∧ (runPipeline (runPipeline s recs tds) recs tds).trades.length
            = (runPipeline s recs tds).trades.length) := by
  refine ⟨runBulk_idem, runPipeline_idem, ?_⟩
  intro s recs tds
  rw [runPipeline_idem]
  exact ⟨rfl, rfl, rfl⟩

/-! ## The duplicate-cleanup maintenance operation

`cleanup_duplicate_trades` embeds the SQL function of the same name:
group the rows carrying a non-null hash by hash, keep groups with more
than one member, order each group by `created_at` (the model uses a
stable insertion sort, one admissible realization of the arbitrary tie
order of ORDER BY), report one row per group plus a summary row, and —
unless `dry_run` — delete every group member except the first. -/

/-- One row of the report returned by the cleanup function. -/
structure CleanupRow where
  action : String
  row_hash : String
  duplicates_found : Nat
  duplicates_removed : Nat
deriving DecidableEq

/-- Insert a trade row into a list sorted by creation tick, before the
first strictly later row (stable for ties). -/
def insByCreated (r : TradeRec) : List TradeRec → List TradeRec
  | [] => [r]
  | x :: xs => if r.created_at < x.created_at then r :: x :: xs else x :: insByCreated r xs

/-- Sort trade rows by creation tick (ORDER BY created_at). -/
def sortByCreated (l : List TradeRec) : List TradeRec := l.foldr insByCreated []

/-- All rows carrying the given non-null hash (GROUP BY row_hash). -/
def hashGroup (rows : List TradeRec) (h : String) : List TradeRec :=
  rows.filter (fun r => decide (r.row_hash = some h))

/-- Accumulate the distinct non-null hashes in first-seen order. -/
def collectStep (acc : List String) (r : TradeRec) : List String :=
  match r.row_hash with
  | some h => if h ∈ acc then acc else acc ++ [h]
  | none => acc

/-- The distinct non-null hashes of the table, in first-seen order. -/
def collectHashes (rows : List TradeRec) : List String :=
  rows.foldl collectStep []

/-- The duplicate groups: for each distinct hash whose group has more
than one member, the hash with its group ordered by creation tick. -/
def dupGroups (rows : List TradeRec) : List (String × List TradeRec) :=
  (collectHashes rows).filterMap fun h =>
    if 1 < (sortByCreated (hashGroup rows h)).length
    then some (h, sortByCreated (hashGroup rows h)) else none

/-- The ids deleted by a live cleanup run: all of each duplicate group
except its first (earliest-created) member. -/
def deletedIdsOf (rows : List TradeRec) : List Nat :=
  (dupGroups rows).flatMap fun p => ((p.2).drop 1).map fun r => r.id

/-- The declared default of the `dry_run` parameter in the SQL
function signature. -/
def cleanup_dry_run_default : Bool := true

/-- The SQL function `cleanup_duplicate_trades`: returns the report
rows (one per duplicate group, then a summary) and the table after the
run; with `dry_run` nothing is deleted and every removal count is 0. -/
def cleanup_duplicate_trades (rows : List TradeRec) (dry_run : Bool) :
    List CleanupRow × List TradeRec :=
  let groups := dupGroups rows
  let groupRows := groups.map fun p =>
    { action := if dry_run then "WOULD DELETE" else "DELETED",
      row_hash := p.1,
      duplicates_found := p.2.length - 1,
      duplicates_removed := if dry_run then 0 else p.2.length - 1 : CleanupRow }
  let total := groups.foldl (fun acc p => acc + (p.2.length - 1)) 0
  let summary : CleanupRow :=
    { action := if dry_run then "DRY RUN SUMMARY" else "CLEANUP SUMMARY",
      row_hash := "",
      duplicates_found := total,
      duplicates_removed := if dry_run then 0 else total }
  let deletedIds := if dry_run then [] else deletedIdsOf rows
  (groupRows ++ [summary], rows.filter fun r => decide (r.id ∉ deletedIds))

/-! Basic lemmas about the grouping and sorting used by the cleanup. -/

theorem mem_hashGroup {rows : List TradeRec} {h : String} {r : TradeRec} :
    r ∈ hashGroup rows h ↔ r ∈ rows ∧ r.row_hash = some h := by
  unfold hashGroup
  rw [List.mem_filter, decide_eq_true_eq]

theorem mem_collectStep {acc : List String} {r : TradeRec} {h : String} :
    h ∈ collectStep acc r ↔ h ∈ acc ∨ r.row_hash = some h := by
  unfold collectStep
  cases hr : r.row_hash with
  | none => simp
  | some h2 =>
      show (h ∈ if h2 ∈ acc then acc else acc ++ [h2]) ↔ (h ∈ acc ∨ some h2 = some h)
      by_cases hin : h2 ∈ acc
      · rw [if_pos hin]
        constructor
        · exact fun hh => Or.inl hh
        · rintro (hh | hh)
          · exact hh
          · obtain rfl : h2 = h := Option.some.inj hh
            exact hin
      · rw [if_neg hin, List.mem_append, List.mem_singleton]
        constructor
        · rintro (hh | hh)
          · exact Or.inl hh
          · exact Or.inr (by rw [hh])
        · rintro (hh | hh)
          · exact Or.inl hh
          · exact Or.inr (Option.some.inj hh).symm

theorem collect_go_mem (rows : List TradeRec) :
    ∀ (acc : List String) (h : String),
      h ∈ rows.foldl collectStep acc ↔ h ∈ acc ∨ ∃ r ∈ rows, r.row_hash = some h := by
  induction rows with
  | nil => intro acc h; simp
  | cons r t ih =>
      intro acc h
      rw [List.foldl_cons, ih (collectStep acc r) h, mem_collectStep]
      simp only [List.mem_cons]
      constructor
      · rintro ((hh | hh) | ⟨r2, hr2, hh⟩)
        · exact Or.inl hh
        · exact Or.inr ⟨r, Or.inl rfl, hh⟩
        · exact Or.inr ⟨r2, Or.inr hr2, hh⟩
      · rintro (hh | ⟨r2, (hr2 | hr2), hh⟩)
        · exact Or.inl (Or.inl hh)
        · subst hr2; exact Or.inl (Or.inr hh)
        · exact Or.inr ⟨r2, hr2, hh⟩

theorem mem_collectHashes {rows : List TradeRec} {h : String} :
    h ∈ collectHashes rows ↔ ∃ r ∈ rows, r.row_hash = some h := by
  unfold collectHashes
  rw [collect_go_mem rows [] h]
  simp

theorem mem_insByCreated {x r : TradeRec} {l : List TradeRec} :
    x ∈ insByCreated r l ↔ x = r ∨ x ∈ l := by
  induction l with
  | nil => simp [insByCreated]
  | cons a t ih =>
      unfold insByCreated
      split
      · simp
      · rw [List.mem_cons, ih, List.mem_cons]
        tauto

theorem perm_insByCreated (r : TradeRec) (l : List TradeRec) :
    List.Perm (insByCreated r l) (r :: l) := by
  induction l with
  | nil => exact List.Perm.refl _
  | cons a t ih =>
      unfold insByCreated
      split
      · exact List.Perm.refl _
      · exact (List.Perm.cons a ih).trans (List.Perm.swap r a t)

theorem perm_sortByCreated (l : List TradeRec) : List.Perm (sortByCreated l) l := by
  induction l with
  | nil => exact List.Perm.refl _
  | cons a t ih =>
      show List.Perm (insByCreated a (sortByCreated t)) (a :: t)
      exact (perm_insByCreated a (sortByCreated t)).trans (List.Perm.cons a ih)

theorem length_sortByCreated (l : List TradeRec) :
    (sortByCreated l).length = l.length :=
  (perm_sortByCreated l).length_eq

theorem mem_sortByCreated {x : TradeRec} {l : List TradeRec} :
    x ∈ sortByCreated l ↔ x ∈ l :=
  (perm_sortByCreated l).mem_iff

theorem pairwise_insByCreated {r : TradeRec} {l : List TradeRec}
    (hp : List.Pairwise (fun a b => a.created_at ≤ b.created_at) l) :
    List.Pairwise (fun a b => a.created_at ≤ b.created_at) (insByCreated r l) := by
  induction l with
  | nil =>
      exact List.Pairwise.cons (fun b hb => absurd hb (List.not_mem_nil b))
        List.Pairwise.nil
  | cons a t ih =>
      obtain ⟨ha, ht⟩ := List.pairwise_cons.mp hp
      unfold insByCreated
      split
      · rename_i hlt
        refine List.Pairwise.cons ?_ hp
        intro x hx
        rcases List.mem_cons.mp hx with hx | hx
        · subst hx; exact Nat.le_of_lt hlt
        · exact Nat.le_trans (Nat.le_of_lt hlt) (ha x hx)
      · rename_i hnlt
        refine List.Pairwise.cons ?_ (ih ht)
        intro x hx
        rcases mem_insByCreated.mp hx with hx | hx
        · subst hx; exact Nat.le_of_not_lt hnlt
        · exact ha x hx

theorem sorted_sortByCreated (l : List TradeRec) :
    List.Pairwise (fun a b => a.created_at ≤ b.created_at) (sortByCreated l) := by
  induction l with
  | nil => exact List.Pairwise.nil
  | cons a t ih => exact pairwise_insByCreated ih

theorem mem_dupGroups {rows : List TradeRec} {p : String × List TradeRec} :
    p ∈ dupGroups rows ↔
      ∃ h ∈ collectHashes rows, 1 < (sortByCreated (hashGroup rows h)).length
        ∧ p = (h, sortByCreated (hashGroup rows h)) := by
  unfold dupGroups
  rw [List.mem_filterMap]
  constructor
  · rintro ⟨h, hmem, hf⟩
    by_cases hlen : 1 < (sortByCreated (hashGroup rows h)).length
    · rw [if_pos hlen] at hf
      exact ⟨h, hmem, hlen, (Option.some.inj hf).symm⟩
    · rw [if_neg hlen] at hf
      cases hf
  · rintro ⟨h, hmem, hlen, hp⟩
    exact ⟨h, hmem, by rw [if_pos hlen, hp]⟩

theorem cleanup_report_dry (rows : List TradeRec) :
    (cleanup_duplicate_trades rows true).1
      = ((dupGroups rows).map fun p =>
          ({ action := "WOULD DELETE", row_hash := p.1,
             duplicates_found := p.2.length - 1, duplicates_removed := 0 } : CleanupRow))
        ++ [{ action := "DRY RUN SUMMARY", row_hash := "",
              duplicates_found := (dupGroups rows).foldl (fun acc p => acc + (p.2.length - 1)) 0,
              duplicates_removed := 0 }] := rfl

theorem cleanup_table_dry (rows : List TradeRec) :
    (cleanup_duplicate_trades rows true).2
      = rows.filter fun r => decide (r.id ∉ ([] : List Nat)) := rfl

theorem cleanup_table_live (rows : List TradeRec) :
    (cleanup_duplicate_trades rows false).2
      = rows.filter fun r => decide (r.id ∉ deletedIdsOf rows) := rfl

/-- C9. The `dry_run` parameter of `cleanup_duplicate_trades` defaults
to true, and a dry run leaves the trades table completely unchanged
while still enumerating every duplicate hash group: the report rows
before the summary are labelled WOULD DELETE with zero removals, every
report row (summary included) reports zero removals, and a hash heads a
pre-summary report row exactly when its group has more than one
member. -/
theorem c9_dry_run_frame :
    cleanup_dry_run_default = true
    ∧ (∀ rows : List TradeRec, (cleanup_duplicate_trades rows true).2 = rows)
    ∧ (∀ rows : List TradeRec,
        ∀ rr ∈ ((cleanup_duplicate_trades rows true).1).dropLast,
          rr.action = "WOULD DELETE" ∧ rr.duplicates_removed = 0)
    ∧ (∀ rows : List TradeRec, ∀ rr ∈ (cleanup_duplicate_trades rows true).1,
        rr.duplicates_removed = 0)
    ∧ (∀ (rows : List TradeRec) (h : String),
        1 < (hashGroup rows h).length ↔
          ∃ rr ∈ ((cleanup_duplicate_trades rows true).1).dropLast, rr.row_hash = h) := by
  refine ⟨rfl, ?_, ?_, ?_, ?_⟩
  · intro rows
    rw [cleanup_table_dry]
    refine List.filter_eq_self.mpr ?_
    intro a _
    simp
  · intro rows rr hrr
    rw [cleanup_report_dry, List.dropLast_concat, List.mem_map] at hrr
    obtain ⟨p, _, rfl⟩ := hrr
    exact ⟨rfl, rfl⟩
  · intro rows rr hrr
    rw [cleanup_report_dry, List.mem_append] at hrr
    rcases hrr with hrr | hrr
    · rw [List.mem_map] at hrr
      obtain ⟨p, _, rfl⟩ := hrr
      rfl
    · rw [List.mem_singleton] at hrr
      rw [hrr]
  · intro rows h
    rw [cleanup_report_dry, List.dropLast_concat]
    constructor
    · intro hlen
      have hlenS : 1 < (sortByCreated (hashGroup rows h)).length := by
        rw [length_sortByCreated]
        exact hlen
      have hne : ∃ a, a ∈ hashGroup rows h := by
        refine List.exists_mem_of_length_pos ?_
        omega
      obtain ⟨a, ha⟩ := hne
      obtain ⟨harows, hahash⟩ := mem_hashGroup.mp ha
      have hmemc : h ∈ collectHashes rows := mem_collectHashes.mpr ⟨a, harows, hahash⟩
      refine ⟨_, List.mem_map.mpr
        ⟨(h, sortByCreated (hashGroup rows h)),
         mem_dupGroups.mpr ⟨h, hmemc, hlenS, rfl⟩, rfl⟩, rfl⟩
    · rintro ⟨rr, hrr, hh⟩
      rw [List.mem_map] at hrr
      obtain ⟨p, hp, rfl⟩ := hrr
      obtain ⟨h2, _, hlen2, rfl⟩ := mem_dupGroups.mp hp
      have : h2 = h := hh
      subst this
      rw [length_sortByCreated] at hlen2
      exact hlen2

/-- A duplicate pair witnessing the cleanup facts: same non-null hash,
distinct ids, distinct creation ticks. -/
def dupRowE : TradeRec :=
  { id := 0, row_hash := some "h", source := "house_clerk", filing_id := some "f",
    asset_description := none, ticker := none, transaction_type := none,
    transaction_date := none, amount_range := none, created_at := 0 }

/-- The later-created duplicate of `dupRowE`. -/
def dupRowL : TradeRec := { dupRowE with id := 1, created_at := 5 }

/-- The pre-summary report row of a dry run over the duplicate pair. -/
def crWould : CleanupRow :=
  { action := "WOULD DELETE", row_hash := "h", duplicates_found := 1,
    duplicates_removed := 0 }

theorem c9_witness :
    (cleanup_duplicate_trades [dupRowE, dupRowL] true).2 = [dupRowE, dupRowL]
    ∧ crWould.action = "WOULD DELETE" ∧ crWould.duplicates_removed = 0 :=
  ⟨c9_dry_run_frame.2.1 [dupRowE, dupRowL],
   c9_dry_run_frame.2.2.1 [dupRowE, dupRowL] crWould (by decide)⟩

/-! ## The live cleanup run -/

/-- All stored trade ids are distinct (the primary key). -/
def idsDistinct (rows : List TradeRec) : Prop :=
  List.Pairwise (fun a b => a.id ≠ b.id) rows

instance (rows : List TradeRec) : Decidable (idsDistinct rows) := by
  unfold idsDistinct
  infer_instance

/-- Within each hash group the creation ticks are distinct, so that the
earliest-created row of a duplicate group is well defined. -/
def createdDistinctPerHash (rows : List TradeRec) : Prop :=
  List.Pairwise (fun a b => a.row_hash = b.row_hash → a.created_at ≠ b.created_at) rows

instance (rows : List TradeRec) : Decidable (createdDistinctPerHash rows) := by
  unfold createdDistinctPerHash
  infer_instance

/-- The row either carries no hash or is the earliest-created row of
its hash group. -/
def earliestInGroup (rows : List TradeRec) (r : TradeRec) : Prop :=
  r.row_hash = none
  ∨ ∀ r2 ∈ rows, r2.row_hash = r.row_hash → r2.id ≠ r.id →
      r.created_at < r2.created_at

instance (rows : List TradeRec) (r : TradeRec) :
    Decidable (earliestInGroup rows r) := by
  unfold earliestInGroup
  infer_instance

theorem idsInj {rows : List TradeRec} (hid : idsDistinct rows) {a b : TradeRec}
    (ha : a ∈ rows) (hb : b ∈ rows) (hab : a.id = b.id) : a = b := by
  by_contra hne
  have hsymm : Symmetric (fun a b : TradeRec => a.id ≠ b.id) :=
    fun x y hxy e => hxy e.symm
  exact List.Pairwise.forall hsymm hid ha hb hne hab

theorem createdNe {rows : List TradeRec} (hcd : createdDistinctPerHash rows)
    {a b : TradeRec} (ha : a ∈ rows) (hb : b ∈ rows) (hne : a ≠ b)
    (hh : a.row_hash = b.row_hash) : a.created_at ≠ b.created_at := by
  have hsymm : Symmetric
      (fun a b : TradeRec => a.row_hash = b.row_hash → a.created_at ≠ b.created_at) :=
    fun x y hxy e hc => hxy e.symm hc.symm
  exact List.Pairwise.forall hsymm hcd ha hb hne hh

theorem pairwiseIds_sortGroup {rows : List TradeRec} (hid : idsDistinct rows)
    (h : String) :
    List.Pairwise (fun a b => a.id ≠ b.id) (sortByCreated (hashGroup rows h)) := by
  have hG : List.Pairwise (fun a b : TradeRec => a.id ≠ b.id) (hashGroup rows h) :=
    List.Pairwise.sublist (List.filter_sublist rows) hid
  exact ((perm_sortByCreated (hashGroup rows h)).pairwise_iff
    (fun hxy e => hxy e.symm)).mpr hG

theorem one_lt_length_of_two_mem {l : List TradeRec} {a b : TradeRec}
    (ha : a ∈ l) (hb : b ∈ l) (hne : a ≠ b) : 1 < l.length := by
  cases l with
  | nil => cases ha
  | cons x t =>
      cases t with
      | nil =>
          rw [List.mem_singleton] at ha hb
          exact absurd (ha.trans hb.symm) hne
      | cons y u => simp only [List.length_cons]; omega

theorem mem_deletedIds {rows : List TradeRec} {n : Nat} :
    n ∈ deletedIdsOf rows ↔
      ∃ h ∈ collectHashes rows,
        1 < (sortByCreated (hashGroup rows h)).length
        ∧ ∃ r2 ∈ (sortByCreated (hashGroup rows h)).drop 1, r2.id = n := by
  unfold deletedIdsOf
  rw [List.mem_flatMap]
  constructor
  · rintro ⟨p, hp, hn⟩
    obtain ⟨h, hmem, hlen, rfl⟩ := mem_dupGroups.mp hp
    rw [List.mem_map] at hn
    obtain ⟨r2, hr2, hidr⟩ := hn
    exact ⟨h, hmem, hlen, r2, hr2, hidr⟩
  · rintro ⟨h, hmem, hlen, r2, hr2, hidr⟩
    exact ⟨(h, sortByCreated (hashGroup rows h)),
      mem_dupGroups.mpr ⟨h, hmem, hlen, rfl⟩, List.mem_map.mpr ⟨r2, hr2, hidr⟩⟩

theorem not_deleted_of_earliest {rows : List TradeRec} (hid : idsDistinct rows)
    {r : TradeRec} (hr : r ∈ rows) (hk : earliestInGroup rows r) :
    r.id ∉ deletedIdsOf rows := by
  intro hdel
  rw [mem_deletedIds] at hdel
  obtain ⟨h, hmem, hlen, r2, hr2d, hidr⟩ := hdel
  have hr2S : r2 ∈ sortByCreated (hashGroup rows h) := List.mem_of_mem_drop hr2d
  have hr2G : r2 ∈ hashGroup rows h := mem_sortByCreated.mp hr2S
  obtain ⟨hr2rows, hr2hash⟩ := mem_hashGroup.mp hr2G
  have heq : r2 = r := idsInj hid hr2rows hr hidr
  subst heq
  rcases hk with hnone | hk
  · rw [hnone] at hr2hash
    cases hr2hash
  · cases hS : sortByCreated (hashGroup rows h) with
    | nil =>
        rw [hS] at hr2S
        cases hr2S
    | cons s0 t =>
        have hrt : r2 ∈ t := by
          rw [hS] at hr2d
          exact hr2d
        have hs0S : s0 ∈ sortByCreated (hashGroup rows h) := by
          rw [hS]
          exact List.mem_cons_self s0 t
        obtain ⟨hs0rows, hs0hash⟩ := mem_hashGroup.mp (mem_sortByCreated.mp hs0S)
        have hsorted := sorted_sortByCreated (hashGroup rows h)
        rw [hS] at hsorted
        have hle : s0.created_at ≤ r2.created_at :=
          (List.pairwise_cons.mp hsorted).1 r2 hrt
        have hpids := pairwiseIds_sortGroup hid h
        rw [hS] at hpids
        have hidne : s0.id ≠ r2.id := (List.pairwise_cons.mp hpids).1 r2 hrt
        have hlt := hk s0 hs0rows (by rw [hs0hash, hr2hash]) hidne
        omega

theorem earliest_of_not_deleted {rows : List TradeRec} (_hid : idsDistinct rows)
    (hcd : createdDistinctPerHash rows) {r : TradeRec} (hr : r ∈ rows)
    (hnd : r.id ∉ deletedIdsOf rows) : earliestInGroup rows r := by
  cases hrh : r.row_hash with
  | none => exact Or.inl hrh
  | some hr0 =>
      refine Or.inr ?_
      intro r2 hr2 hhash hidne
      have hrG : r ∈ hashGroup rows hr0 := mem_hashGroup.mpr ⟨hr, hrh⟩
      have hr2G : r2 ∈ hashGroup rows hr0 :=
        mem_hashGroup.mpr ⟨hr2, by rw [hhash, hrh]⟩
      have hner : r2 ≠ r := fun e => hidne (by rw [e])
      have hlenG : 1 < (hashGroup rows hr0).length :=
        one_lt_length_of_two_mem hr2G hrG hner
      have hlenS : 1 < (sortByCreated (hashGroup rows hr0)).length := by
        rw [length_sortByCreated]
        exact hlenG
      have hmemc : hr0 ∈ collectHashes rows := mem_collectHashes.mpr ⟨r, hr, hrh⟩
      cases hS : sortByCreated (hashGroup rows hr0) with
      | nil =>
          rw [hS] at hlenS
          simp at hlenS
      | cons s0 t =>
          have hrS : r ∈ sortByCreated (hashGroup rows hr0) := mem_sortByCreated.mpr hrG
          have hrnott : r ∉ t := by
            intro hrt
            apply hnd
            rw [mem_deletedIds]
            exact ⟨hr0, hmemc, hlenS, r, by rw [hS]; exact hrt, rfl⟩
          have hrs0 : r = s0 := by
            rw [hS, List.mem_cons] at hrS
            rcases hrS with e | e
            · exact e
            · exact absurd e hrnott
          have hr2S : r2 ∈ sortByCreated (hashGroup rows hr0) := mem_sortByCreated.mpr hr2G
          have hr2t : r2 ∈ t := by
            rw [hS, List.mem_cons] at hr2S
            rcases hr2S with e | e
            · exact absurd (e.trans hrs0.symm) hner
            · exact e
          have hsorted := sorted_sortByCreated (hashGroup rows hr0)
          rw [hS] at hsorted
          have hle : s0.created_at ≤ r2.created_at :=
            (List.pairwise_cons.mp hsorted).1 r2 hr2t
          have hcne : r2.created_at ≠ r.created_at :=
            createdNe hcd hr2 hr hner (by rw [hhash])
          rw [← hrs0] at hle
          omega

theorem insertTradeData_absent {rows : List TradeRec} {d : TradeData}
    (hp : ¬hashPresent rows (tradeDataHash d)) :
    insertTradeData rows d = rows ++ [mkTradeRec rows.length rows.length d] := by
  unfold insertTradeData
  exact if_neg hp

theorem ingestTrades_append (ds : List TradeData) :
    ∀ rows : List TradeRec, ∃ ext, ingestTrades rows ds = rows ++ ext := by
  induction ds with
  | nil => exact fun rows => ⟨[], (List.append_nil rows).symm⟩
  | cons d rest ih =>
      intro rows
      show ∃ ext, ingestTrades (insertTradeData rows d) rest = rows ++ ext
      by_cases hp : hashPresent rows (tradeDataHash d)
      · rw [insertTradeData_noop hp]
        exact ih rows
      · rw [insertTradeData_absent hp]
        obtain ⟨ext2, hext2⟩ := ih (rows ++ [mkTradeRec rows.length rows.length d])
        exact ⟨[mkTradeRec rows.length rows.length d] ++ ext2,
          by rw [hext2, List.append_assoc]⟩

theorem ingestDiscs_append (ds : List DiscData) :
    ∀ rows : List DiscRec, ∃ ext, ingestDiscs rows ds = rows ++ ext := by
  induction ds with
  | nil => exact fun rows => ⟨[], (List.append_nil rows).symm⟩
  | cons d rest ih =>
      intro rows
      show ∃ ext, ingestDiscs (insertDisc rows d).1 rest = rows ++ ext
      by_cases hp : keyPresentDisc rows (discDataKey d)
      · rw [insertDisc_noop hp]
        exact ih rows
      · have habs : (insertDisc rows d).1 = rows ++ [mkDiscRec rows.length d] := by
          unfold insertDisc
          rw [if_neg hp]
        rw [habs]
        obtain ⟨ext2, hext2⟩ := ih (rows ++ [mkDiscRec rows.length d])
        exact ⟨[mkDiscRec rows.length d] ++ ext2, by rw [hext2, List.append_assoc]⟩

theorem runBulk_trades (recs : List BulkRecord) :
    ∀ s : Store, (runBulk s recs).trades = s.trades := by
  induction recs with
  | nil => exact fun s => rfl
  | cons r t ih =>
      intro s
      show (runBulk (ingestRecord s r) t).trades = s.trades
      rw [ih (ingestRecord s r)]
      rfl

/-- C5. A live cleanup run (`dry_run = false`) deletes exactly the
non-earliest rows of each duplicate hash group: assuming distinct ids
and distinct creation ticks within a hash group, a stored row survives
the run precisely when it carries no hash or is the earliest-created
row among those sharing its hash; the result contains only original
rows, and every hash represented before is still represented after
(one row per duplicate group remains). No pipeline operation other than
the cleanup removes trades: trade and disclosure inserts only append,
and bulk ingestion never touches the trades table. -/
theorem c5_cleanup_deletes_all_but_earliest :
    (∀ rows : List TradeRec, idsDistinct rows → createdDistinctPerHash rows →
      ∀ r ∈ rows,
        (r ∈ (cleanup_duplicate_trades rows false).2 ↔ earliestInGroup rows r))
    ∧ (∀ rows : List TradeRec, ∀ r ∈ (cleanup_duplicate_trades rows false).2, r ∈ rows)
    ∧ (∀ rows : List TradeRec, idsDistinct rows → createdDistinctPerHash rows →
        ∀ h : String, (∃ r ∈ rows, r.row_hash = some h) →
          ∃ r ∈ (cleanup_duplicate_trades rows false).2, r.row_hash = some h)
    ∧ (∀ (rows : List TradeRec) (ds : List TradeData),
        ∃ ext, ingestTrades rows ds = rows ++ ext)
    ∧ (∀ (rows : List DiscRec) (ds : List DiscData),
        ∃ ext, ingestDiscs rows ds = rows ++ ext)
    ∧ (∀ (s : Store) (recs : List BulkRecord), (runBulk s recs).trades = s.trades) := by
  refine ⟨?_, ?_, ?_, fun rows ds => ingestTrades_append ds rows,
    fun rows ds => ingestDiscs_append ds rows,
    fun s recs => runBulk_trades recs s⟩
  · intro rows hid hcd r hr
    rw [cleanup_table_live, List.mem_filter, decide_eq_true_eq]
    constructor
    · rintro ⟨hmem, hnd⟩
      exact earliest_of_not_deleted hid hcd hmem hnd
    · intro hk
      exact ⟨hr, not_deleted_of_earliest hid hr hk⟩
  · intro rows r hr
    rw [cleanup_table_live, List.mem_filter] at hr
    exact hr.1
  · intro rows hid hcd h hex
    obtain ⟨r, hr, hrh⟩ := hex
    have hrG : r ∈ hashGroup rows h := mem_hashGroup.mpr ⟨hr, hrh⟩
    have hrS : r ∈ sortByCreated (hashGroup rows h) := mem_sortByCreated.mpr hrG
    cases hS : sortByCreated (hashGroup rows h) with
    | nil =>
        rw [hS] at hrS
        cases hrS
    | cons s0 t =>
        have hs0S : s0 ∈ sortByCreated (hashGroup rows h) := by
          rw [hS]
          exact List.mem_cons_self s0 t
        obtain ⟨hs0rows, hs0hash⟩ := mem_hashGroup.mp (mem_sortByCreated.mp hs0S)
        refine ⟨s0, ?_, hs0hash⟩
        rw [cleanup_table_live, List.mem_filter, decide_eq_true_eq]
        refine ⟨hs0rows, ?_⟩
        intro hdel
        rw [mem_deletedIds] at hdel
        obtain ⟨h2, hmem2, hlen2, r2, hr2d, hidr⟩ := hdel
        have hr2S : r2 ∈ sortByCreated (hashGroup rows h2) := List.mem_of_mem_drop hr2d
        obtain ⟨hr2rows, hr2hash⟩ := mem_hashGroup.mp (mem_sortByCreated.mp hr2S)
        have heq : r2 = s0 := idsInj hid hr2rows hs0rows hidr
        subst heq
        have hh2 : h2 = h := by
          rw [hs0hash] at hr2hash
          exact (Option.some.inj hr2hash).symm
        subst hh2
        rw [hS] at hr2d
        have hpids := pairwiseIds_sortGroup hid h2
        rw [hS] at hpids
        exact (List.pairwise_cons.mp hpids).1 r2 hr2d rfl

theorem c5_witness :
    (dupRowE ∈ (cleanup_duplicate_trades [dupRowE, dupRowL] false).2
      ↔ earliestInGroup [dupRowE, dupRowL] dupRowE)
    ∧ ∃ r ∈ (cleanup_duplicate_trades [dupRowE, dupRowL] false).2,
        r.row_hash = some "h" :=
  ⟨c5_cleanup_deletes_all_but_earliest.1 [dupRowE, dupRowL] (by decide) (by decide)
     dupRowE (by decide),
   c5_cleanup_deletes_all_but_earliest.2.2.1 [dupRowE, dupRowL] (by decide) (by decide)
     "h" ⟨dupRowE, by decide, rfl⟩⟩

/-! ## Normalization of one bulk TXT row

The bulk archive rows are tab-delimited with the fixed columns
Prefix, Last, First, Suffix, FilingType, StateDst, Year, FilingDate,
DocID. The parser and normalizer are not among the checked sources and
are modelled from the spec: split the compound state+district code,
map the single-letter filing-type code into the enumerated domain
(unknown codes reject the record), parse the date under the explicit
M/D/YYYY format, and separate politician identity from disclosure
data. -/

/-- Split a character list at every occurrence of `c`. -/
def splitCharList (c : Char) : List Char → List (List Char)
  | [] => [[]]
  | ch :: rest =>
      let acc := splitCharList c rest
      if ch = c then [] :: acc
      else (ch :: acc.headD []) :: acc.tail

/-- Split a string at every occurrence of `c`. -/
def splitOnCharS (c : Char) (s : String) : List String :=
  (splitCharList c s.data).map fun cs => ⟨cs⟩

/-- Modelled from the spec: split a compound state+district code such
as MI04 into the two-letter state and the remaining district digits. -/
def splitStateDistrict (sd : String) : String × String :=
  (⟨sd.data.take 2⟩, ⟨sd.data.drop 2⟩)

/-- The enumerated filing-type domain. -/
inductive FilingType where
  | periodicTransaction
  | amendment
  | candidate
  | disclosure
  | officer
  | extensionFiling
  | withdrawal
deriving DecidableEq

/-- Modelled from the spec: map a single-letter filing-type code into
the enumerated domain; unknown codes are rejected. -/
def filingTypeOf (code : String) : Option FilingType :=
  if code = "P" then some FilingType.periodicTransaction
  else if code = "A" then some FilingType.amendment
  else if code = "C" then some FilingType.candidate
  else if code = "D" then some FilingType.disclosure
  else if code = "O" then some FilingType.officer
  else if code = "X" then some FilingType.extensionFiling
  else if code = "W" then some FilingType.withdrawal
  else none

/-- The single-letter code stored for a filing type. -/
def filingTypeCode : FilingType → String
  | FilingType.periodicTransaction => "P"
  | FilingType.amendment => "A"
  | FilingType.candidate => "C"
  | FilingType.disclosure => "D"
  | FilingType.officer => "O"
  | FilingType.extensionFiling => "X"
  | FilingType.withdrawal => "W"

/-- Left-pad a one-digit field to two digits. -/
def pad2 (s : String) : String := if s.length = 1 then "0" ++ s else s

/-- Modelled from the spec: parse a filing date under the explicit
M/D/YYYY format into ISO form, else null. -/
def parseFilingDate (s : String) : Option String :=
  match splitOnCharS '/' s with
  | [m, d, y] => some (y ++ "-" ++ pad2 m ++ "-" ++ pad2 d)
  | _ => none

/-- Modelled from the spec: normalize one tab-delimited bulk row into a
politician identity plus disclosure record; rows with the wrong column
count or an unknown filing-type code are rejected. -/
def normalizeBulkRow (line : String) : Option BulkRecord :=
  match splitOnCharS '\t' line with
  | [_pfx, lastName, firstName, _sfx, ftypeCode, stateDst, _year, filedDate, docId] =>
      match filingTypeOf ftypeCode with
      | some ft =>
          some { pol := { full_name := firstName ++ " " ++ lastName,
                          first_name := some firstName, last_name := some lastName,
                          chamber := some "house",
                          state := some (splitStateDistrict stateDst).1,
                          district := some (splitStateDistrict stateDst).2,
                          party := none },
                 source := "house_clerk", doc_id := docId,
                 filing_type := some (filingTypeCode ft),
                 filed_date := parseFilingDate filedDate }
      | none => none
  | _ => none

/-- The concrete bulk row of the spec scenario. -/
def sampleRow : String := "\tAaron\tRichard\tD\tP\tMI04\t2025\t3/24/2025\t40003749"

/-- The record the sample row normalizes to. -/
def sampleRec : BulkRecord :=
  { pol := { full_name := "Richard Aaron", first_name := some "Richard",
             last_name := some "Aaron", chamber := some "house",
             state := some "MI", district := some "04", party := none },
    source := "house_clerk", doc_id := "40003749",
    filing_type := some "P", filed_date := some "2025-03-24" }

/-- The empty three-table store. -/
def emptyStore : Store := { pols := [], discs := [], trades := [] }

/-- C8. Normalizing the concrete tab-delimited bulk row yields the
politician Richard Aaron with the compound code MI04 split into state
MI and district 04, and the disclosure with document id 40003749,
periodic-transaction filing type (code P) and ISO filed date
2025-03-24; ingesting that row into an empty store creates one
politician and one disclosure, and feeding the identical row a second
time changes nothing — zero new rows in every table. -/
theorem c8_bulk_row_normalization :
    normalizeBulkRow sampleRow = some sampleRec
    ∧ sampleRec.pol.first_name = some "Richard"
    ∧ sampleRec.pol.last_name = some "Aaron"
    ∧ sampleRec.pol.state = some "MI"
    ∧ sampleRec.pol.district = some "04"
    ∧ sampleRec.doc_id = "40003749"
    ∧ sampleRec.filing_type = some (filingTypeCode FilingType.periodicTransaction)
    ∧ filingTypeOf "P" = some FilingType.periodicTransaction
    ∧ sampleRec.filed_date = some "2025-03-24"
    ∧ splitStateDistrict "MI04" = ("MI", "04")
    ∧ (runBulk emptyStore [sampleRec]).pols.length = 1
    ∧ (runBulk emptyStore [sampleRec]).discs.length = 1
    ∧ (runBulk emptyStore [sampleRec]).trades.length = 0
    ∧ runBulk (runBulk emptyStore [sampleRec]) [sampleRec]
        = runBulk emptyStore [sampleRec] := by
  decide

end Tradespotter
